import Mathlib

/-!
Verification of the generic K8s resource lifecycle engine
(`phi/k8s/resource/base.py`, class `K8sResource`) and its manifest
projection and serialization.

The embedding is shallow: the Python instance state (control flags and
observed lifecycle state) becomes an explicit record `K8sResource`; the
kind-specific primitives that a concrete resource subclass may override
(`_read`, `_create`, `_update`, `_delete`) and the post-action hooks become
an explicit `K8sSpecialization` record, where `none` means "the subclass did
not override the primitive" so the base-class default runs.  Every
lifecycle operation returns its Python return value, the updated instance
state, and the list of primitive/hook invocations it performed (an `Event`
trace), so that "the create primitive is never invoked" is a statement
about the trace.
-/

/-- A Python value that can end up in `active_resource`: the base-class
default `_read` returns the Python boolean `True`, an overriding
kind-specific `_read` returns a live API object (modelled opaquely) or
`None` (modelled as `Option.none` at the use site). -/
inductive PyVal where
  | pyBool (b : Bool)
  | pyObj (n : Nat)
  deriving DecidableEq, Repr

/-- One observable invocation performed by a lifecycle operation:
a kind-specific primitive, a base-class "method not defined" default
(which logs an error), a post-action hook, or an output-file action. -/
inductive Event where
  | readPrim
  | readDefaultPrim
  | createPrim
  | createDefaultPrim
  | updatePrim
  | updateDefaultPrim
  | deletePrim
  | deleteDefaultPrim
  | postCreateHook
  | postUpdateHook
  | postDeleteHook
  | saveOutputFile
  | deleteOutputFile
  deriving DecidableEq, Repr

/-- The kind-specific part of a concrete resource class, together with the
responses of the remote cluster during one run: for each primitive, `none`
means the subclass did not override it (the base default runs), `some r`
means the override runs and returns `r`.  For `_read`, the override's
result is itself a `Option PyVal`: `none` is Python `None` ("not found").
`post_create` etc. are the results of the (overridable) post-action hooks,
whose base defaults return `True`. -/
structure K8sSpecialization where
  readPrimitive : Option (Option PyVal)
  createPrimitive : Option Bool
  updatePrimitive : Option Bool
  deletePrimitive : Option Bool
  post_create : Bool
  post_update : Bool
  post_delete : Bool
  deriving DecidableEq, Repr

/-- The per-instance state of `K8sResource` (including the control flags and
observed lifecycle state inherited from `ResourceBase`): the caller-set
skip flags, `use_cache` and `save_output`, the cached `active_resource`
(Python `Optional[Any]`, initially `None`), and the tri-state
`resource_created` / `resource_updated` / `resource_deleted`
(Python `Optional[bool]`, initially `None` = unknown). -/
structure K8sResource where
  skip_read : Bool
  skip_create : Bool
  skip_update : Bool
  skip_delete : Bool
  use_cache : Bool
  save_output : Bool
  active_resource : Option PyVal
  resource_created : Option Bool
  resource_updated : Option Bool
  resource_deleted : Option Bool
  deriving DecidableEq, Repr

namespace K8sResource

/-- Dispatch of `self._read(client)`: the kind-specific override if the
subclass supplied one, else the base default, which logs
"@_read method not defined" and returns the Python boolean `True`. -/
def readDispatch (env : K8sSpecialization) : Option PyVal × List Event :=
  match env.readPrimitive with
  | some res => (res, [Event.readPrim])
  | none => (some (PyVal.pyBool true), [Event.readDefaultPrim])

/-- `K8sResource.read`: return the cached `active_resource` when
`use_cache` is true and it is populated; else return `True` when
`skip_read`; else delegate to `_read`.  The instance state is not
modified by `read`. -/
def read (r : K8sResource) (env : K8sSpecialization) :
    Option PyVal × K8sResource × List Event :=
  if r.use_cache && r.active_resource.isSome then
    (r.active_resource, r, [])
  else if r.skip_read then
    (some (PyVal.pyBool true), r, [])
  else
    let p := readDispatch env
    (p.1, r, p.2)

/-- `K8sResource.is_active`: unconditionally call `_read`, store its result
into `active_resource`, and return `True` iff the result is not `None`. -/
def is_active (r : K8sResource) (env : K8sSpecialization) :
    Bool × K8sResource × List Event :=
  let p := readDispatch env
  (p.1.isSome, { r with active_resource := p.1 }, p.2)

/-- Dispatch of `self._create(client)`: the kind-specific override if
supplied, else the base default, which logs "@_create method not defined"
and returns `True`. -/
def createDispatch (env : K8sSpecialization) : Bool × List Event :=
  match env.createPrimitive with
  | some res => (res, [Event.createPrim])
  | none => (true, [Event.createDefaultPrim])

/-- Steps 3 and 4 of `K8sResource.create`: invoke `_create`, store the
result into `resource_created`; on success optionally save the output file
and return the `post_create` hook's result, on failure return
`resource_created` (i.e. `False`).  `evs` is the trace accumulated by the
earlier steps. -/
def createSteps (r : K8sResource) (env : K8sSpecialization) (evs : List Event) :
    Bool × K8sResource × List Event :=
  let c := createDispatch env
  let r2 : K8sResource := { r with resource_created := some c.1 }
  let evs2 := evs ++ c.2
  if c.1 then
    let evs3 := evs2 ++ (if r2.save_output then [Event.saveOutputFile] else [])
    (env.post_create, r2, evs3 ++ [Event.postCreateHook])
  else
    (false, r2, evs2)

/-- `K8sResource.create`: skip-flag short-circuit; then
`if self.use_cache and self.is_active(client)` (note the Python `and`
short-circuits: `is_active` is not called at all when `use_cache` is
false) — on a cache hit set `resource_created = True` and return `True`
immediately; otherwise fall through to `_create` and the post-create
steps. -/
def create (r : K8sResource) (env : K8sSpecialization) :
    Bool × K8sResource × List Event :=
  if r.skip_create then
    (true, r, [])
  else if r.use_cache then
    let a := is_active r env
    if a.1 then
      (true, { a.2.1 with resource_created := some true }, a.2.2)
    else
      createSteps a.2.1 env a.2.2
  else
    createSteps r env []

/-- Dispatch of `self._update(client)`: the kind-specific override if
supplied, else the base default, which logs "@_update method not defined"
and returns `True`. -/
def updateDispatch (env : K8sSpecialization) : Bool × List Event :=
  match env.updatePrimitive with
  | some res => (res, [Event.updatePrim])
  | none => (true, [Event.updateDefaultPrim])

/-- `K8sResource.update`: skip-flag short-circuit; probe via `is_active`;
if absent print "does not exist" and return `True`; else invoke `_update`,
store the result into `resource_updated`; on success optionally save the
output file and return the `post_update` hook's result, on failure return
`resource_updated` (i.e. `False`). -/
def update (r : K8sResource) (env : K8sSpecialization) :
    Bool × K8sResource × List Event :=
  if r.skip_update then
    (true, r, [])
  else
    let a := is_active r env
    if a.1 then
      let u := updateDispatch env
      let r2 : K8sResource := { a.2.1 with resource_updated := some u.1 }
      let evs := a.2.2 ++ u.2
      if u.1 then
        let evs2 := evs ++ (if r2.save_output then [Event.saveOutputFile] else [])
        (env.post_update, r2, evs2 ++ [Event.postUpdateHook])
      else
        (false, r2, evs)
    else
      (true, a.2.1, a.2.2)

/-- Dispatch of `self._delete(client)`: the kind-specific override if
supplied, else the base default, which logs "@_delete method not defined"
and returns `True`. -/
def deleteDispatch (env : K8sSpecialization) : Bool × List Event :=
  match env.deletePrimitive with
  | some res => (res, [Event.deletePrim])
  | none => (true, [Event.deleteDefaultPrim])

/-- `K8sResource.delete`: skip-flag short-circuit; probe via `is_active`;
if absent print "does not exist" and return `True`; else invoke `_delete`,
store the result into `resource_deleted`; on success optionally delete the
output file and return the `post_delete` hook's result, on failure return
`resource_deleted` (i.e. `False`). -/
def delete (r : K8sResource) (env : K8sSpecialization) :
    Bool × K8sResource × List Event :=
  if r.skip_delete then
    (true, r, [])
  else
    let a := is_active r env
    if a.1 then
      let d := deleteDispatch env
      let r2 : K8sResource := { a.2.1 with resource_deleted := some d.1 }
      let evs := a.2.2 ++ d.2
      if d.1 then
        let evs2 := evs ++ (if r2.save_output then [Event.deleteOutputFile] else [])
        (env.post_delete, r2, evs2 ++ [Event.postDeleteHook])
      else
        (false, r2, evs)
    else
      (true, a.2.1, a.2.2)

end K8sResource

/-!
Manifest projection (`get_k8s_manifest_dict`).

`model_dump(exclude_defaults=True, by_alias=True)` is modelled as a pure
function on an explicit list of pydantic field descriptors: each field has
a Python attribute name, an optional alias, a current value and an optional
declared default (`none` for a required field).  The dump emits, in field
order, `alias-or-name ↦ value` for every field whose value differs from
its declared default (required fields are always emitted).

A Python `dict` is modelled as an association list with insertion order;
assigning to an existing key overwrites in place, assigning a fresh key
appends.
-/

/-- One pydantic model field: attribute name, optional wire alias, current
value and optional declared default (`none` = required field). -/
structure FieldSpec (Val : Type) where
  fname : String
  falias : Option String
  fvalue : Val
  fdefault : Option Val
  deriving DecidableEq, Repr

namespace Manifest

/-- The key under which a field appears in a `by_alias=True` dump: its
alias when it has one, else its attribute name. -/
def dumpKey {Val : Type} (f : FieldSpec Val) : String :=
  f.falias.getD f.fname

/-- `model_dump(exclude_defaults=True, by_alias=True)`: every field whose
current value differs from its declared default, keyed by alias-or-name,
in field order. -/
def model_dump {Val : Type} [DecidableEq Val] (fs : List (FieldSpec Val)) :
    List (String × Val) :=
  fs.filterMap fun f =>
    if f.fdefault = some f.fvalue then none else some (dumpKey f, f.fvalue)

/-- Python `d[k] = v` on an insertion-ordered dict: overwrite in place if
`k` is already a key, else append. -/
def dictInsert {Val : Type} (m : List (String × Val)) (k : String) (v : Val) :
    List (String × Val) :=
  if (m.lookup k).isSome then
    m.map fun p => if p.1 = k then (k, v) else p
  else
    m ++ [(k, v)]

/-- The class attribute `fields_for_k8s_manifest_base` of `K8sResource`,
verbatim (note it lists both the attribute name `api_version` and its
alias `apiVersion`). -/
def fields_for_k8s_manifest_base : List String :=
  ["api_version", "apiVersion", "kind", "metadata"]

/-- `get_k8s_manifest_dict`, parameterized by the result of `model_dump`
(`allAttributes`) and the subclass's `fields_for_k8s_manifest` list:
iterate over `chain(fields_for_k8s_manifest_base, fields_for_k8s_manifest)`
and copy each attribute present in `allAttributes` into the manifest
dict. -/
def get_k8s_manifest_dict {Val : Type} (allAttributes : List (String × Val))
    (fields_for_k8s_manifest : List String) : List (String × Val) :=
  (fields_for_k8s_manifest_base ++ fields_for_k8s_manifest).foldl
    (fun m attr =>
      match allAttributes.lookup attr with
      | some v => dictInsert m attr v
      | none => m)
    []

/-- The three required base fields of `K8sResource` with their wire
aliases: `api_version` (alias `apiVersion`), `kind`, `metadata`.  All
three are declared without a default (`Field(...)` / required), so
`model_dump(exclude_defaults=True)` always emits them. -/
def requiredBaseFields {Val : Type} (av kd md : Val) : List (FieldSpec Val) :=
  [⟨"api_version", some "apiVersion", av, none⟩,
   ⟨"kind", none, kd, none⟩,
   ⟨"metadata", none, md, none⟩]

end Manifest

/-!
Claims about the lifecycle engine.
-/

open K8sResource in
/-- Helper: the cache-hit branch of `create` — with `skip_create = false`,
`use_cache = true` and an active probe, `create` stores the probe result,
marks `resource_created = true` and returns `true` with only the probe's
trace. -/
theorem create_cache_hit (r : K8sResource) (env : K8sSpecialization)
    (hskip : r.skip_create = false) (hcache : r.use_cache = true)
    (hactive : ((readDispatch env).1).isSome = true) :
    create r env =
      (true, { r with active_resource := (readDispatch env).1,
                      resource_created := some true }, (readDispatch env).2) := by
  simp [create, is_active, hskip, hcache, hactive]

open K8sResource in
/-- Helper: the trace of a `_read` dispatch never contains a create
primitive event. -/
theorem createPrim_not_mem_readDispatch (env : K8sSpecialization) :
    Event.createPrim ∉ (readDispatch env).2 := by
  cases h : env.readPrimitive <;> simp [K8sResource.readDispatch, h]

open K8sResource in
/-- C1: For every resource with `skip_create = false` and `use_cache = true`,
if the existence probe reports the resource active, then `create` marks
`resource_created = true` and returns `true` without invoking the
kind-specific create primitive; consequently a second `create` call after
the first issues no further create submission provided the probe then
reports the resource active. -/
theorem claim_c1 (r : K8sResource) (env : K8sSpecialization)
    (hskip : r.skip_create = false) (hcache : r.use_cache = true)
    (hactive : ((readDispatch env).1).isSome = true) :
    (create r env).1 = true ∧
    (create r env).2.1.resource_created = some true ∧
    Event.createPrim ∉ (create r env).2.2 ∧
    ∀ env2 : K8sSpecialization, ((readDispatch env2).1).isSome = true →
      (create (create r env).2.1 env2).1 = true ∧
      Event.createPrim ∉ (create (create r env).2.1 env2).2.2 := by
  have hrun := create_cache_hit r env hskip hcache hactive
  refine ⟨by rw [hrun], by rw [hrun], by rw [hrun]; exact createPrim_not_mem_readDispatch env, ?_⟩
  intro env2 hactive2
  have hrun2 := create_cache_hit (create r env).2.1 env2
    (by rw [hrun]; exact hskip) (by rw [hrun]; exact hcache) hactive2
  exact ⟨by rw [hrun2], by rw [hrun2]; exact createPrim_not_mem_readDispatch env2⟩

/-- Witness for C1 at a concrete resource and specialization. -/
theorem claim_c1_witness :
    let r : K8sResource := ⟨false, false, false, false, true, false, none, none, none, none⟩
    let env : K8sSpecialization :=
      ⟨some (some (PyVal.pyObj 7)), some true, some true, some true, true, true, true⟩
    (K8sResource.create r env).1 = true ∧
    (K8sResource.create r env).2.1.resource_created = some true ∧
    Event.createPrim ∉ (K8sResource.create r env).2.2 := by
  intro r env
  have h := claim_c1 r env (by decide) (by decide) (by decide)
  exact ⟨h.1, h.2.1, h.2.2.1⟩

open K8sResource in
/-- C4: For every resource with `skip_update = false` (resp.
`skip_delete = false`) whose existence probe returns absent, `update`
(resp. `delete`) returns `true` without invoking the kind-specific update
(resp. delete) primitive. -/
theorem claim_c4 (r : K8sResource) (env : K8sSpecialization)
    (habsent : (readDispatch env).1 = none) :
    (r.skip_update = false →
      (update r env).1 = true ∧
      Event.updatePrim ∉ (update r env).2.2 ∧
      Event.updateDefaultPrim ∉ (update r env).2.2) ∧
    (r.skip_delete = false →
      (delete r env).1 = true ∧
      Event.deletePrim ∉ (delete r env).2.2 ∧
      Event.deleteDefaultPrim ∉ (delete r env).2.2) := by
  have hreadEv : Event.updatePrim ∉ (readDispatch env).2 ∧
      Event.updateDefaultPrim ∉ (readDispatch env).2 ∧
      Event.deletePrim ∉ (readDispatch env).2 ∧
      Event.deleteDefaultPrim ∉ (readDispatch env).2 := by
    cases h : env.readPrimitive <;> simp [readDispatch, h]
  constructor
  · intro hskip
    have hrun : update r env =
        (true, { r with active_resource := (readDispatch env).1 }, (readDispatch env).2) := by
      simp [update, is_active, hskip, habsent]
    rw [hrun]
    exact ⟨rfl, hreadEv.1, hreadEv.2.1⟩
  · intro hskip
    have hrun : delete r env =
        (true, { r with active_resource := (readDispatch env).1 }, (readDispatch env).2) := by
      simp [delete, is_active, hskip, habsent]
    rw [hrun]
    exact ⟨rfl, hreadEv.2.2.1, hreadEv.2.2.2⟩

/-- Witness for C4 at a concrete resource whose probe returns `None`. -/
theorem claim_c4_witness :
    let r : K8sResource := ⟨false, false, false, false, true, false, none, none, none, none⟩
    let env : K8sSpecialization := ⟨some none, some true, some true, some true, true, true, true⟩
    (K8sResource.update r env).1 = true ∧
    Event.updatePrim ∉ (K8sResource.update r env).2.2 ∧
    (K8sResource.delete r env).1 = true ∧
    Event.deletePrim ∉ (K8sResource.delete r env).2.2 := by
  intro r env
  have h := claim_c4 r env (by decide)
  exact ⟨(h.1 (by decide)).1, (h.1 (by decide)).2.1,
         (h.2 (by decide)).1, (h.2 (by decide)).2.1⟩

open K8sResource in
/-- C5: For every resource and each of `create`, `update`, `delete`: when
the operation's skip flag is true the operation returns `true`, performs no
primitive or hook invocation at all, and leaves the state unchanged,
regardless of the resource's existence on the remote system. -/
theorem claim_c5 (r : K8sResource) (env : K8sSpecialization) :
    (r.skip_create = true → create r env = (true, r, [])) ∧
    (r.skip_update = true → update r env = (true, r, [])) ∧
    (r.skip_delete = true → delete r env = (true, r, [])) := by
  refine ⟨fun h => ?_, fun h => ?_, fun h => ?_⟩
  · simp [create, h]
  · simp [update, h]
  · simp [delete, h]

/-- Witness for C5 at a concrete resource with all three skip flags set. -/
theorem claim_c5_witness :
    let r : K8sResource := ⟨false, true, true, true, true, false, none, none, none, none⟩
    let env : K8sSpecialization := ⟨some none, some false, some false, some false, true, true, true⟩
    K8sResource.create r env = (true, r, []) ∧
    K8sResource.update r env = (true, r, []) ∧
    K8sResource.delete r env = (true, r, []) := by
  intro r env
  have h := claim_c5 r env
  exact ⟨h.1 (by decide), h.2.1 (by decide), h.2.2 (by decide)⟩

open K8sResource in
/-- C6: For every resource with `skip_create = false`, when the
kind-specific create primitive is invoked and reports failure, `create`
returns `false`, `resource_created` is set to that failure value, and the
post-create hook is not invoked. -/
theorem claim_c6 (r : K8sResource) (env : K8sSpecialization)
    (hskip : r.skip_create = false)
    (hprim : env.createPrimitive = some false)
    (hreached : Event.createPrim ∈ (create r env).2.2) :
    (create r env).1 = false ∧
    (create r env).2.1.resource_created = some false ∧
    Event.postCreateHook ∉ (create r env).2.2 := by
  have hsteps : ∀ s : K8sResource, ∀ evs, Event.createPrim ∉ evs →
      createSteps s env evs = (false, { s with resource_created := some false }, evs ++ [Event.createPrim]) := by
    intro s evs _
    simp [createSteps, createDispatch, hprim]
  by_cases hcache : r.use_cache = true
  · by_cases hactive : ((readDispatch env).1).isSome = true
    · exfalso
      rw [create_cache_hit r env hskip hcache hactive] at hreached
      exact createPrim_not_mem_readDispatch env hreached
    · have hrun : create r env =
          createSteps { r with active_resource := (readDispatch env).1 } env (readDispatch env).2 := by
        simp [create, is_active, hskip, hcache, hactive]
      rw [hrun, hsteps _ _ (createPrim_not_mem_readDispatch env)]
      refine ⟨rfl, rfl, ?_⟩
      intro hmem
      rcases List.mem_append.mp hmem with h | h
      · cases henv : env.readPrimitive <;> simp [readDispatch, henv] at h
      · simp at h
  · have hrun : create r env = createSteps r env [] := by
      simp [create, hskip, hcache]
    rw [hrun, hsteps _ _ (by simp)]
    exact ⟨rfl, rfl, by simp⟩

/-- Witness for C6 at a concrete resource whose create primitive fails. -/
theorem claim_c6_witness :
    let r : K8sResource := ⟨false, false, false, false, true, false, none, none, none, none⟩
    let env : K8sSpecialization := ⟨some none, some false, some true, some true, true, true, true⟩
    (K8sResource.create r env).1 = false ∧
    (K8sResource.create r env).2.1.resource_created = some false ∧
    Event.postCreateHook ∉ (K8sResource.create r env).2.2 := by
  intro r env
  exact claim_c6 r env (by decide) (by decide) (by decide)

open K8sResource in
/-- C7: `read` returns the populated cache without probing when
`use_cache = true`; and with `use_cache = false` (and `skip_read = false`)
every `read` call — the state being unchanged, in particular a second
consecutive call — invokes a fresh probe via the kind-specific read
primitive, even when an earlier call returned a live object. -/
theorem claim_c7 (r : K8sResource) (env : K8sSpecialization) :
    (r.use_cache = true → r.active_resource.isSome = true →
      read r env = (r.active_resource, r, [])) ∧
    (r.use_cache = false → r.skip_read = false →
      ∀ res, env.readPrimitive = some res →
        read r env = (res, r, [Event.readPrim]) ∧
        ∀ env2 res2, env2.readPrimitive = some res2 →
          read (read r env).2.1 env2 = (res2, r, [Event.readPrim])) := by
  constructor
  · intro hcache hsome
    simp [K8sResource.read, hcache, hsome]
  · intro hcache hskip res hres
    have hrun : K8sResource.read r env = (res, r, [Event.readPrim]) := by
      simp [K8sResource.read, hcache, hskip, readDispatch, hres]
    refine ⟨hrun, ?_⟩
    intro env2 res2 hres2
    rw [hrun]
    simp [K8sResource.read, hcache, hskip, readDispatch, hres2]

/-- Witness for C7: a concrete populated cache is returned without probing,
and with `use_cache = false` two consecutive reads both probe. -/
theorem claim_c7_witness :
    let rc : K8sResource :=
      ⟨false, false, false, false, true, false, some (PyVal.pyObj 3), none, none, none⟩
    let rf : K8sResource :=
      ⟨false, false, false, false, false, false, some (PyVal.pyObj 3), none, none, none⟩
    let env : K8sSpecialization :=
      ⟨some (some (PyVal.pyObj 9)), some true, some true, some true, true, true, true⟩
    K8sResource.read rc env = (some (PyVal.pyObj 3), rc, []) ∧
    K8sResource.read rf env = (some (PyVal.pyObj 9), rf, [Event.readPrim]) ∧
    K8sResource.read (K8sResource.read rf env).2.1 env =
      (some (PyVal.pyObj 9), rf, [Event.readPrim]) := by
  intro rc rf env
  refine ⟨(claim_c7 rc env).1 (by decide) (by decide), ?_, ?_⟩
  · exact ((claim_c7 rf env).2 (by decide) (by decide) (some (PyVal.pyObj 9)) (by decide)).1
  · exact ((claim_c7 rf env).2 (by decide) (by decide) (some (PyVal.pyObj 9)) (by decide)).2
      env (some (PyVal.pyObj 9)) (by decide)

open K8sResource in
/-- C10: For every resource whose specialization does not override the
kind-specific read primitive, the default `_read` returns the Python
boolean `True`, so `is_active` stores `True` into `active_resource` and
returns `true`; such a resource is always reported present, which makes
`create` with `use_cache = true` take the "already exists" branch without
invoking the create primitive, and makes `update` and `delete` proceed to
their primitives. -/
theorem claim_c10 (r : K8sResource) (env : K8sSpecialization)
    (hnoread : env.readPrimitive = none) :
    is_active r env =
      (true, { r with active_resource := some (PyVal.pyBool true) }, [Event.readDefaultPrim]) ∧
    (r.skip_create = false → r.use_cache = true →
      create r env =
        (true, { r with active_resource := some (PyVal.pyBool true),
                        resource_created := some true }, [Event.readDefaultPrim]) ∧
      Event.createPrim ∉ (create r env).2.2) ∧
    (r.skip_update = false →
      Event.updatePrim ∈ (update r env).2.2 ∨
      Event.updateDefaultPrim ∈ (update r env).2.2) ∧
    (r.skip_delete = false →
      Event.deletePrim ∈ (delete r env).2.2 ∨
      Event.deleteDefaultPrim ∈ (delete r env).2.2) := by
  have hdisp : readDispatch env = (some (PyVal.pyBool true), [Event.readDefaultPrim]) := by
    simp [readDispatch, hnoread]
  refine ⟨by simp [is_active, hdisp], ?_, ?_, ?_⟩
  · intro hskip hcache
    have hrun := create_cache_hit r env hskip hcache (by rw [hdisp]; rfl)
    rw [hdisp] at hrun
    exact ⟨hrun, by rw [hrun]; simp⟩
  · intro hskip
    have hrun : update r env =
        (let u := updateDispatch env
         let r2 : K8sResource :=
           { r with active_resource := some (PyVal.pyBool true), resource_updated := some u.1 }
         if u.1 then
           (env.post_update, r2,
             ([Event.readDefaultPrim] ++ u.2 ++ (if r2.save_output then [Event.saveOutputFile] else []))
               ++ [Event.postUpdateHook])
         else (false, r2, [Event.readDefaultPrim] ++ u.2)) := by
      simp [update, is_active, hskip, hdisp]
    rw [hrun]
    cases henv : env.updatePrimitive <;> by_cases hres : (updateDispatch env).1 = true <;>
      simp_all [updateDispatch]
  · intro hskip
    have hrun : delete r env =
        (let d := deleteDispatch env
         let r2 : K8sResource :=
           { r with active_resource := some (PyVal.pyBool true), resource_deleted := some d.1 }
         if d.1 then
           (env.post_delete, r2,
             ([Event.readDefaultPrim] ++ d.2 ++ (if r2.save_output then [Event.deleteOutputFile] else []))
               ++ [Event.postDeleteHook])
         else (false, r2, [Event.readDefaultPrim] ++ d.2)) := by
      simp [delete, is_active, hskip, hdisp]
    rw [hrun]
    cases henv : env.deletePrimitive <;> by_cases hres : (deleteDispatch env).1 = true <;>
      simp_all [deleteDispatch]

/-- Witness for C10 at a concrete resource with no read override. -/
theorem claim_c10_witness :
    let r : K8sResource := ⟨false, false, false, false, true, false, none, none, none, none⟩
    let env : K8sSpecialization := ⟨none, some true, some true, some true, true, true, true⟩
    K8sResource.is_active r env =
      (true, { r with active_resource := some (PyVal.pyBool true) }, [Event.readDefaultPrim]) ∧
    (K8sResource.create r env).1 = true ∧
    Event.createPrim ∉ (K8sResource.create r env).2.2 ∧
    Event.updatePrim ∈ (K8sResource.update r env).2.2 ∨
      Event.updateDefaultPrim ∈ (K8sResource.update r env).2.2 := by
  intro r env
  have h := claim_c10 r env (by decide)
  left
  refine ⟨h.1, ?_, ?_, ?_⟩
  · rw [(h.2.1 (by decide) (by decide)).1]
  · exact (h.2.1 (by decide) (by decide)).2
  · rcases h.2.2.1 (by decide) with hm | hm
    · exact hm
    · exact absurd hm (by decide)

/-- Counterexample to C2: at a concrete resource whose specialization
supplies no create/update/delete primitive (and whose flags let every
operation reach its primitive), all three lifecycle operations return
`true` — success — contradicting the claim that a missing primitive makes
the operation report a failure. -/
theorem claim_c2_counterexample :
    (K8sResource.create ⟨false, false, false, false, false, false, none, none, none, none⟩
      ⟨none, none, none, none, true, true, true⟩).1 = true ∧
    (K8sResource.update ⟨false, false, false, false, false, false, none, none, none, none⟩
      ⟨none, none, none, none, true, true, true⟩).1 = true ∧
    (K8sResource.delete ⟨false, false, false, false, false, false, none, none, none, none⟩
      ⟨none, none, none, none, true, true, true⟩).1 = true := by
  decide

open K8sResource in
/-- C2 (amended): For every resource whose specialization does not supply
a kind-specific create (resp. update, delete) primitive, when the
corresponding lifecycle operation reaches the primitive it runs the base
default, which signals "not implemented" only by logging (the
default-primitive event in the trace) and returns `True`; the operation
therefore records success (`resource_created`/`resource_updated`/
`resource_deleted = True`) and — with the default post-action hooks —
returns `true`, indistinguishable from a genuine success by its boolean
result. -/
theorem claim_c2_amended (r : K8sResource) (env : K8sSpecialization) :
    (env.createPrimitive = none → r.skip_create = false →
      ¬(r.use_cache = true ∧ ((readDispatch env).1).isSome = true) →
      env.post_create = true →
      Event.createDefaultPrim ∈ (create r env).2.2 ∧
      (create r env).2.1.resource_created = some true ∧
      (create r env).1 = true) ∧
    (env.updatePrimitive = none → r.skip_update = false →
      ((readDispatch env).1).isSome = true → env.post_update = true →
      Event.updateDefaultPrim ∈ (update r env).2.2 ∧
      (update r env).2.1.resource_updated = some true ∧
      (update r env).1 = true) ∧
    (env.deletePrimitive = none → r.skip_delete = false →
      ((readDispatch env).1).isSome = true → env.post_delete = true →
      Event.deleteDefaultPrim ∈ (delete r env).2.2 ∧
      (delete r env).2.1.resource_deleted = some true ∧
      (delete r env).1 = true) := by
  refine ⟨?_, ?_, ?_⟩
  · intro hprim hskip hnocache hpost
    by_cases hcache : r.use_cache = true
    · have hactive : ((readDispatch env).1).isSome = false := by
        cases h : ((readDispatch env).1).isSome
        · rfl
        · exact absurd ⟨hcache, h⟩ hnocache
      have hrun : create r env =
          createSteps { r with active_resource := (readDispatch env).1 } env
            (readDispatch env).2 := by
        simp [create, is_active, hskip, hcache, hactive]
      rw [hrun]
      simp [createSteps, createDispatch, hprim, hpost]
    · have hrun : create r env = createSteps r env [] := by
        simp [create, hskip, hcache]
      rw [hrun]
      simp [createSteps, createDispatch, hprim, hpost]
  · intro hprim hskip hactive hpost
    have hrun : update r env =
        (env.post_update,
          { r with active_resource := (readDispatch env).1, resource_updated := some true },
          ((readDispatch env).2 ++ [Event.updateDefaultPrim] ++
            (if r.save_output then [Event.saveOutputFile] else [])) ++ [Event.postUpdateHook]) := by
      simp [update, is_active, hskip, hactive, updateDispatch, hprim]
    rw [hrun]
    simp [hpost]
  · intro hprim hskip hactive hpost
    have hrun : delete r env =
        (env.post_delete,
          { r with active_resource := (readDispatch env).1, resource_deleted := some true },
          ((readDispatch env).2 ++ [Event.deleteDefaultPrim] ++
            (if r.save_output then [Event.deleteOutputFile] else [])) ++ [Event.postDeleteHook]) := by
      simp [delete, is_active, hskip, hactive, deleteDispatch, hprim]
    rw [hrun]
    simp [hpost]

/-- Witness for the amended C2 at a concrete resource with no
kind-specific primitives. -/
theorem claim_c2_amended_witness :
    let r : K8sResource := ⟨false, false, false, false, false, false, none, none, none, none⟩
    let env : K8sSpecialization := ⟨none, none, none, none, true, true, true⟩
    Event.createDefaultPrim ∈ (K8sResource.create r env).2.2 ∧
    (K8sResource.create r env).1 = true ∧
    Event.updateDefaultPrim ∈ (K8sResource.update r env).2.2 ∧
    (K8sResource.update r env).1 = true := by
  intro r env
  have h := claim_c2_amended r env
  have hc := h.1 (by decide) (by decide) (by decide) (by decide)
  have hu := h.2.1 (by decide) (by decide) (by decide) (by decide)
  exact ⟨hc.1, hc.2.2, hu.1, hu.2.2⟩

/-- Counterexample to C3: at a concrete resource with `skip_create = false`
and `use_cache = false`, `create` invokes the kind-specific create
primitive yet never probes existence (`is_active` is skipped by the
short-circuit of `self.use_cache and self.is_active(client)`), and
`active_resource` is left untouched. -/
theorem claim_c3_counterexample :
    Event.createPrim ∈
      (K8sResource.create ⟨false, false, false, false, false, false, none, none, none, none⟩
        ⟨some (some (PyVal.pyObj 0)), some true, some true, some true, true, true, true⟩).2.2 ∧
    Event.readPrim ∉
      (K8sResource.create ⟨false, false, false, false, false, false, none, none, none, none⟩
        ⟨some (some (PyVal.pyObj 0)), some true, some true, some true, true, true, true⟩).2.2 ∧
    Event.readDefaultPrim ∉
      (K8sResource.create ⟨false, false, false, false, false, false, none, none, none, none⟩
        ⟨some (some (PyVal.pyObj 0)), some true, some true, some true, true, true, true⟩).2.2 ∧
    (K8sResource.create ⟨false, false, false, false, false, false, none, none, none, none⟩
        ⟨some (some (PyVal.pyObj 0)), some true, some true, some true, true, true, true⟩).2.1.active_resource
      = none := by
  decide

open K8sResource in
/-- C3 (amended): For every `create` call with `skip_create = false` and
`use_cache = true`, the engine probes existence via `is_active` — storing
the probe result into `active_resource` — before the kind-specific create
primitive can be invoked: the run's trace starts with the probe's trace,
which contains no create-primitive event.  (With `use_cache = false` the
probe is skipped entirely; see the counterexample.) -/
theorem claim_c3_amended (r : K8sResource) (env : K8sSpecialization)
    (hskip : r.skip_create = false) (hcache : r.use_cache = true) :
    (create r env).2.1.active_resource = (readDispatch env).1 ∧
    ∃ tail, (create r env).2.2 = (readDispatch env).2 ++ tail ∧
      Event.createPrim ∉ (readDispatch env).2 := by
  by_cases hactive : ((readDispatch env).1).isSome = true
  · rw [create_cache_hit r env hskip hcache hactive]
    exact ⟨rfl, [], by simp, createPrim_not_mem_readDispatch env⟩
  · have hrun : create r env =
        createSteps { r with active_resource := (readDispatch env).1 } env
          (readDispatch env).2 := by
      simp [create, is_active, hskip, hcache, hactive]
    rw [hrun]
    refine ⟨by by_cases hres : (createDispatch env).1 = true <;> simp [createSteps, hres], ?_⟩
    by_cases hres : (createDispatch env).1 = true
    · exact ⟨(createDispatch env).2 ++
          (if r.save_output then [Event.saveOutputFile] else []) ++ [Event.postCreateHook],
        by simp [createSteps, hres], createPrim_not_mem_readDispatch env⟩
    · exact ⟨(createDispatch env).2,
        by simp [createSteps, hres], createPrim_not_mem_readDispatch env⟩

/-- Witness for the amended C3 at a concrete resource with caching on and
an absent probe result (so the create primitive is reached after the
probe). -/
theorem claim_c3_amended_witness :
    let r : K8sResource := ⟨false, false, false, false, true, false, none, none, none, none⟩
    let env : K8sSpecialization := ⟨some none, some true, some true, some true, true, true, true⟩
    (K8sResource.create r env).2.1.active_resource = none ∧
    ∃ tail, (K8sResource.create r env).2.2 = [Event.readPrim] ++ tail := by
  intro r env
  have h := claim_c3_amended r env (by decide) (by decide)
  refine ⟨h.1, ?_⟩
  obtain ⟨tail, htail, -⟩ := h.2
  exact ⟨tail, htail⟩

namespace Manifest

/-- Helper: a key bound by no pair of an association list looks up to
`none`. -/
theorem lookup_eq_none_of_forall {Val : Type} (l : List (String × Val)) (k : String)
    (h : ∀ p ∈ l, p.1 ≠ k) : l.lookup k = none := by
  induction l with
  | nil => rfl
  | cons p rest ih =>
    have hp : p.1 ≠ k := h p (by simp)
    obtain ⟨a, b⟩ := p
    have hk : (k == a) = false := by
      simp only [beq_eq_false_iff_ne]
      exact fun hq => hp hq.symm
    simp only [List.lookup, hk]
    exact ih fun q hq => h q (by simp [hq])

/-- Helper: looking up past a prefix that does not bind the key. -/
theorem lookup_append_of_none {Val : Type} (l1 l2 : List (String × Val)) (k : String)
    (h : l1.lookup k = none) : (l1 ++ l2).lookup k = l2.lookup k := by
  induction l1 with
  | nil => rfl
  | cons p rest ih =>
    obtain ⟨a, b⟩ := p
    simp only [List.lookup, List.cons_append] at h ⊢
    rcases hk : (k == a) with _ | _
    · rw [hk] at h
      exact ih h
    · rw [hk] at h
      exact absurd h (by simp)

/-- Helper: the keys of a `model_dump` all come from `dumpKey`. -/
theorem mem_model_dump_key {Val : Type} [DecidableEq Val] (fs : List (FieldSpec Val))
    (p : String × Val) (hp : p ∈ model_dump fs) : ∃ f ∈ fs, p.1 = dumpKey f := by
  obtain ⟨f, hf, hpf⟩ := List.mem_filterMap.mp hp
  refine ⟨f, hf, ?_⟩
  by_cases hd : f.fdefault = some f.fvalue
  · simp [hd] at hpf
  · simp [hd] at hpf
    subst hpf
    rfl

/-- Helper: a field holding its declared default never appears in the dump
of a field list with pairwise-distinct dump keys. -/
theorem model_dump_lookup_default {Val : Type} [DecidableEq Val]
    (fs : List (FieldSpec Val)) (f : FieldSpec Val) (hf : f ∈ fs)
    (hdef : f.fdefault = some f.fvalue) (hnd : (fs.map dumpKey).Nodup) :
    (model_dump fs).lookup (dumpKey f) = none := by
  induction fs with
  | nil => simp at hf
  | cons g rest ih =>
    have hnd' : (rest.map dumpKey).Nodup := (List.nodup_cons.mp hnd).2
    have hgrest : dumpKey g ∉ rest.map dumpKey := (List.nodup_cons.mp hnd).1
    rcases List.mem_cons.mp hf with rfl | hfr
    · have : model_dump (f :: rest) = model_dump rest := by
        simp [model_dump, hdef]
      rw [this]
      refine lookup_eq_none_of_forall _ _ fun p hp => ?_
      obtain ⟨h, hh, hph⟩ := mem_model_dump_key rest p hp
      rw [hph]
      intro heq
      exact hgrest (heq ▸ List.mem_map_of_mem dumpKey hh)
    · have hne : dumpKey g ≠ dumpKey f := by
        intro heq
        exact hgrest (heq ▸ List.mem_map_of_mem dumpKey hfr)
      by_cases hd : g.fdefault = some g.fvalue
      · have : model_dump (g :: rest) = model_dump rest := by
          simp [model_dump, hd]
        rw [this]
        exact ih hfr hnd'
      · have : model_dump (g :: rest) = (dumpKey g, g.fvalue) :: model_dump rest := by
          simp [model_dump, hd]
        rw [this]
        have hk : (dumpKey f == dumpKey g) = false := by
          simp only [beq_eq_false_iff_ne]
          exact fun hq => hne hq.symm
        simp only [List.lookup, hk]
        exact ih hfr hnd'

/-- Helper: when the keys drawn from the chain are pairwise distinct and
fresh for the accumulator, the dict-building fold is a plain filtered
append. -/
theorem foldl_dictInsert_eq {Val : Type} (allA : List (String × Val))
    (chain : List String) (acc : List (String × Val))
    (hfresh : ∀ a ∈ chain, acc.lookup a = none) (hnd : chain.Nodup) :
    chain.foldl
      (fun m attr =>
        match allA.lookup attr with
        | some v => dictInsert m attr v
        | none => m)
      acc
    = acc ++ chain.filterMap fun a => (allA.lookup a).map fun v => (a, v) := by
  induction chain generalizing acc with
  | nil => simp
  | cons a rest ih =>
    have hnd' : rest.Nodup := (List.nodup_cons.mp hnd).2
    have hamem : a ∉ rest := (List.nodup_cons.mp hnd).1
    cases hlook : allA.lookup a with
    | none =>
      simp only [List.foldl_cons, hlook, List.filterMap_cons]
      rw [ih acc (fun b hb => hfresh b (by simp [hb])) hnd']
      simp [hlook]
    | some v =>
      have hins : dictInsert acc a v = acc ++ [(a, v)] := by
        simp [dictInsert, hfresh a (by simp)]
      simp only [List.foldl_cons, hlook, hins]
      rw [ih (acc ++ [(a, v)])
        (fun b hb => by
          rw [lookup_append_of_none _ _ _ (hfresh b (by simp [hb]))]
          have hba : (b == a) = false := by
            simp only [beq_eq_false_iff_ne]
            rintro rfl
            exact hamem hb
          simp [List.lookup, hba])
        hnd']
      simp [hlook]

/-- Helper: distinct field dump keys give distinct `model_dump` keys. -/
theorem model_dump_keys_nodup {Val : Type} [DecidableEq Val]
    (fs : List (FieldSpec Val)) (hnd : (fs.map dumpKey).Nodup) :
    ((model_dump fs).map Prod.fst).Nodup := by
  induction fs with
  | nil => simp [model_dump]
  | cons g rest ih =>
    rw [List.map_cons, List.nodup_cons] at hnd
    have htail := ih hnd.2
    by_cases hd : g.fdefault = some g.fvalue
    · have : model_dump (g :: rest) = model_dump rest := by simp [model_dump, hd]
      rw [this]
      exact htail
    · have hmd : model_dump (g :: rest) = (dumpKey g, g.fvalue) :: model_dump rest := by
        simp [model_dump, hd]
      rw [hmd, List.map_cons, List.nodup_cons]
      refine ⟨?_, htail⟩
      intro hmem
      obtain ⟨p, hp, hpk⟩ := List.mem_map.mp hmem
      obtain ⟨q, hq, hqk⟩ := mem_model_dump_key rest p hp
      refine hnd.1 ?_
      have hgq : dumpKey g = dumpKey q := by
        have hpk' : p.1 = dumpKey g := hpk
        rw [← hpk', hqk]
      rw [hgq]
      exact List.mem_map_of_mem dumpKey hq

end Manifest

open Manifest in
/-- C8: For every resource state, the manifest projection
`get_k8s_manifest_dict` yields a mapping whose keys are a subset of the
union of the fixed base field set (apiVersion, kind, metadata) and the
kind-specific `fields_for_k8s_manifest` list, uses wire-facing alias names
(the `api_version` attribute appears as `apiVersion`), omits every
attribute holding its declared default value, and lists the base fields
before the specialized fields.  The hypotheses record what pydantic
guarantees for a `K8sResource` subclass: no other field dumps under one of
the four base keys, dump keys are pairwise distinct, and the
subclass-declared `fields_for_k8s_manifest` names are distinct and
disjoint from the base list. -/
theorem claim_c8 {Val : Type} [DecidableEq Val] (av kd md : Val)
    (others : List (FieldSpec Val)) (fields : List String)
    (hothers : ∀ f ∈ others, dumpKey f ∉ fields_for_k8s_manifest_base)
    (hndOthers : (others.map dumpKey).Nodup)
    (hfieldsNd : fields.Nodup)
    (hdisj : ∀ a ∈ fields, a ∉ fields_for_k8s_manifest_base) :
    (∀ p ∈ get_k8s_manifest_dict (model_dump (requiredBaseFields av kd md ++ others)) fields,
        p.1 = "apiVersion" ∨ p.1 = "kind" ∨ p.1 = "metadata" ∨ p.1 ∈ fields) ∧
    (get_k8s_manifest_dict (model_dump (requiredBaseFields av kd md ++ others)) fields).lookup
        "apiVersion" = some av ∧
    (get_k8s_manifest_dict (model_dump (requiredBaseFields av kd md ++ others)) fields).lookup
        "api_version" = none ∧
    (∀ f ∈ others, f.fdefault = some f.fvalue →
      (get_k8s_manifest_dict (model_dump (requiredBaseFields av kd md ++ others)) fields).lookup
        (dumpKey f) = none) ∧
    ∃ m2, get_k8s_manifest_dict (model_dump (requiredBaseFields av kd md ++ others)) fields
        = [("apiVersion", av), ("kind", kd), ("metadata", md)] ++ m2 ∧
      ∀ p ∈ m2, p.1 ∈ fields := by
  have haA : model_dump (requiredBaseFields av kd md ++ others)
      = [("apiVersion", av), ("kind", kd), ("metadata", md)] ++ model_dump others := by
    simp [model_dump, requiredBaseFields, dumpKey]
  set allA := model_dump (requiredBaseFields av kd md ++ others) with hallA
  have hdumpNotBase : ∀ p ∈ model_dump others, p.1 ∉ fields_for_k8s_manifest_base := by
    intro p hp
    obtain ⟨f, hf, hpf⟩ := mem_model_dump_key others p hp
    rw [hpf]
    exact hothers f hf
  have hlookBase : ∀ k, k ∈ fields_for_k8s_manifest_base →
      (model_dump others).lookup k = none := by
    intro k hk
    refine lookup_eq_none_of_forall _ _ fun p hp => ?_
    intro heq
    exact hdumpNotBase p hp (heq ▸ hk)
  have hlook_apiv : allA.lookup "api_version" = none := by
    rw [haA]
    have h1 : (([("apiVersion", av), ("kind", kd), ("metadata", md)] :
        List (String × Val))).lookup "api_version" = none := by
      simp [List.lookup]
    rw [lookup_append_of_none _ _ _ h1]
    exact hlookBase _ (by simp [fields_for_k8s_manifest_base])
  have hchainNd : (fields_for_k8s_manifest_base ++ fields).Nodup := by
    rw [List.nodup_append]
    exact ⟨by simp [fields_for_k8s_manifest_base], hfieldsNd,
      fun a ha hb => hdisj a hb ha⟩
  have hm : get_k8s_manifest_dict allA fields
      = (fields_for_k8s_manifest_base ++ fields).filterMap
          (fun a => (allA.lookup a).map fun v => (a, v)) := by
    rw [get_k8s_manifest_dict, foldl_dictInsert_eq allA _ [] (fun a _ => rfl) hchainNd]
    simp
  have hbasePart : fields_for_k8s_manifest_base.filterMap
      (fun a => (allA.lookup a).map fun v => (a, v))
      = [("apiVersion", av), ("kind", kd), ("metadata", md)] := by
    rw [fields_for_k8s_manifest_base]
    simp only [List.filterMap_cons]
    rw [hlook_apiv, haA]
    simp [List.lookup]
  have hmfull : get_k8s_manifest_dict allA fields
      = [("apiVersion", av), ("kind", kd), ("metadata", md)] ++
          fields.filterMap (fun a => (allA.lookup a).map fun v => (a, v)) := by
    rw [hm, List.filterMap_append, hbasePart]
  have hm2mem : ∀ p ∈ fields.filterMap (fun a => (allA.lookup a).map fun v => (a, v)),
      p.1 ∈ fields ∧ allA.lookup p.1 = some p.2 := by
    intro p hp
    obtain ⟨a, ha, hpa⟩ := List.mem_filterMap.mp hp
    cases hl : allA.lookup a with
    | none => rw [hl] at hpa; simp at hpa
    | some v =>
      rw [hl] at hpa
      simp at hpa
      rw [← hpa]
      exact ⟨ha, hl⟩
  have hkeys : ∀ p ∈ get_k8s_manifest_dict allA fields,
      p.1 = "apiVersion" ∨ p.1 = "kind" ∨ p.1 = "metadata" ∨ p.1 ∈ fields := by
    intro p hp
    rw [hmfull] at hp
    rcases List.mem_append.mp hp with h | h
    · simp only [List.mem_cons, List.not_mem_nil, or_false] at h
      rcases h with rfl | rfl | rfl
      · exact Or.inl rfl
      · exact Or.inr (Or.inl rfl)
      · exact Or.inr (Or.inr (Or.inl rfl))
    · exact Or.inr (Or.inr (Or.inr (hm2mem p h).1))
  refine ⟨hkeys, ?_, ?_, ?_, ?_⟩
  · rw [hmfull]
    simp [List.lookup]
  · refine lookup_eq_none_of_forall _ _ fun p hp => ?_
    rcases hkeys p hp with h | h | h | h
    · rw [h]; decide
    · rw [h]; decide
    · rw [h]; decide
    · intro heq
      exact hdisj p.1 h (heq ▸ (by simp [fields_for_k8s_manifest_base]))
  · intro f hf hdef
    have hlookf : allA.lookup (dumpKey f) = none := by
      rw [haA]
      have h1 : (([("apiVersion", av), ("kind", kd), ("metadata", md)] :
          List (String × Val))).lookup (dumpKey f) = none := by
        refine lookup_eq_none_of_forall _ _ fun p hp => ?_
        have hfb := hothers f hf
        intro heq
        apply hfb
        rw [← heq]
        simp only [List.mem_cons, List.not_mem_nil, or_false] at hp
        rcases hp with rfl | rfl | rfl <;> simp [fields_for_k8s_manifest_base]
      rw [lookup_append_of_none _ _ _ h1]
      exact model_dump_lookup_default others f hf hdef hndOthers
    refine lookup_eq_none_of_forall _ _ fun p hp => ?_
    rw [hmfull] at hp
    rcases List.mem_append.mp hp with h | h
    · have hfb := hothers f hf
      intro heq
      apply hfb
      rw [← heq]
      simp only [List.mem_cons, List.not_mem_nil, or_false] at h
      rcases h with rfl | rfl | rfl <;> simp [fields_for_k8s_manifest_base]
    · intro heq
      have := (hm2mem p h).2
      rw [heq, hlookf] at this
      exact Option.noConfusion this
  · exact ⟨fields.filterMap (fun a => (allA.lookup a).map fun v => (a, v)), hmfull,
      fun p hp => (hm2mem p hp).1⟩

/-- Witness for C8: a concrete resource dump with one non-default
specialized field (`replicas`) and one field at its default (`async_req`):
the manifest keeps `apiVersion` (not `api_version`) and `replicas`, and
omits the defaulted field. -/
theorem claim_c8_witness :
    (Manifest.get_k8s_manifest_dict
      (Manifest.model_dump (Manifest.requiredBaseFields 10 20 30 ++
        [⟨"replicas", none, 3, some 0⟩, ⟨"async_req", none, 0, some 0⟩]))
      ["replicas"]).lookup "apiVersion" = some 10 ∧
    (Manifest.get_k8s_manifest_dict
      (Manifest.model_dump (Manifest.requiredBaseFields 10 20 30 ++
        [⟨"replicas", none, 3, some 0⟩, ⟨"async_req", none, 0, some 0⟩]))
      ["replicas"]).lookup "api_version" = none ∧
    (Manifest.get_k8s_manifest_dict
      (Manifest.model_dump (Manifest.requiredBaseFields 10 20 30 ++
        [⟨"replicas", none, 3, some 0⟩, ⟨"async_req", none, 0, some 0⟩]))
      ["replicas"]).lookup "async_req" = none := by
  have h := @claim_c8 Nat _ 10 20 30
    [⟨"replicas", none, 3, some 0⟩, ⟨"async_req", none, 0, some 0⟩] ["replicas"]
    (by intro f hf; fin_cases hf <;> decide)
    (by decide)
    (by decide)
    (by intro a ha; fin_cases ha; decide)
  exact ⟨h.2.1, h.2.2.1,
    h.2.2.2.1 ⟨"async_req", none, 0, some 0⟩ (by simp) rfl⟩

/-!
Serialization (`get_k8s_manifest_yaml` / `get_k8s_manifest_json`).

The source methods delegate to the external libraries `yaml.safe_dump` and
`json.dumps` / re-reading uses `yaml.safe_load` and `json.loads`.  Those
libraries are not part of this repository, so the encoders and decoders
below are modelled from the spec ("two lossless encodings of the same
mapping … both must round-trip back to an equivalent mapping"), mirroring
the concrete behaviour of the Python libraries on the manifest fragment:
JSON with the default separators, YAML in block style with two-space
indentation and sorted keys, scalars restricted to plain-safe strings,
integers and booleans.
-/

/-- A manifest value: a string, integer or boolean scalar, or a nested
string-keyed mapping (the fragment of Python values that the manifest
projection produces). -/
inductive JVal where
  | jstr (s : String)
  | jint (n : Int)
  | jbool (b : Bool)
  | jobj (kvs : List (String × JVal))

namespace Serial

/-- The decimal digit character for `d` (meaningful for `d < 10`). -/
def digitChar (d : Nat) : Char := Char.ofNat (48 + d)

/-- Decimal representation of a natural number, most significant digit
first. -/
def natChars (n : Nat) : List Char :=
  if n < 10 then [digitChar n]
  else natChars (n / 10) ++ [digitChar (n % 10)]
decreasing_by exact Nat.div_lt_self (by omega) (by omega)

/-- Decimal representation of an integer. -/
def intChars (n : Int) : List Char :=
  if n < 0 then '-' :: natChars n.natAbs else natChars n.toNat

/-- The value of a list of decimal digit characters. -/
def digitsToNat (ds : List Char) : Nat :=
  ds.foldl (fun acc c => acc * 10 + (c.toNat - 48)) 0

/-- Helper: the digit character of `d < 10` has code `48 + d` and is a
digit. -/
theorem digitChar_spec (d : Nat) (hd : d < 10) :
    (digitChar d).toNat = 48 + d ∧ (digitChar d).isDigit = true := by
  interval_cases d <;> exact ⟨rfl, rfl⟩

/-- Helper: `natChars` is nonempty and consists of digit characters. -/
theorem natChars_spec (n : Nat) :
    natChars n ≠ [] ∧ ∀ c ∈ natChars n, c.isDigit = true := by
  induction n using Nat.strong_induction_on with
  | _ n ih =>
    by_cases h : n < 10
    · rw [natChars, if_pos h]
      exact ⟨by simp, fun c hc => by
        rw [List.mem_singleton.mp hc]; exact (digitChar_spec n h).2⟩
    · rw [natChars, if_neg h]
      have hdiv := ih (n / 10) (Nat.div_lt_self (by omega) (by omega))
      refine ⟨by simp [hdiv.1], fun c hc => ?_⟩
      rcases List.mem_append.mp hc with hm | hm
      · exact hdiv.2 c hm
      · rw [List.mem_singleton.mp hm]
        exact (digitChar_spec (n % 10) (Nat.mod_lt n (by omega))).2

/-- Helper: folding the digit-accumulation over `natChars n` starting from
`acc` yields `acc * 10 ^ digits + n`. -/
theorem foldl_natChars (n : Nat) : ∀ acc : Nat,
    (natChars n).foldl (fun a c => a * 10 + (c.toNat - 48)) acc
      = acc * 10 ^ (natChars n).length + n := by
  induction n using Nat.strong_induction_on with
  | _ n ih =>
    intro acc
    by_cases h : n < 10
    · rw [natChars, if_pos h]
      simp [(digitChar_spec n h).1]
    · rw [natChars, if_neg h]
      rw [List.foldl_append, ih (n / 10) (Nat.div_lt_self (by omega) (by omega)) acc]
      simp only [List.foldl_cons, List.foldl_nil, List.length_append, List.length_singleton]
      rw [(digitChar_spec (n % 10) (Nat.mod_lt n (by omega))).1]
      have hmod : 48 + n % 10 - 48 = n % 10 := by omega
      rw [hmod, pow_succ]
      have hdm : 10 * (n / 10) + n % 10 = n := Nat.div_add_mod n 10
      calc (acc * 10 ^ (natChars (n / 10)).length + n / 10) * 10 + n % 10
          = acc * (10 ^ (natChars (n / 10)).length * 10) + (10 * (n / 10) + n % 10) := by ring
        _ = acc * (10 ^ (natChars (n / 10)).length * 10) + n := by rw [hdm]

/-- Helper: decoding the decimal representation recovers the number. -/
theorem digitsToNat_natChars (n : Nat) : digitsToNat (natChars n) = n := by
  rw [digitsToNat, foldl_natChars n 0]
  simp

/-- Helper: `takeWhile`/`dropWhile` split exactly at the end of a block
whose members all satisfy `p` when the remainder does not start with a
`p`-character. -/
theorem takeWhile_dropWhile_append {p : Char → Bool} (ds rest : List Char)
    (hds : ∀ c ∈ ds, p c = true)
    (hrest : ∀ c, rest.head? = some c → p c = false) :
    (ds ++ rest).takeWhile p = ds ∧ (ds ++ rest).dropWhile p = rest := by
  induction ds with
  | nil =>
    simp only [List.nil_append]
    cases rest with
    | nil => exact ⟨rfl, rfl⟩
    | cons c cs =>
      have := hrest c rfl
      simp [List.takeWhile, List.dropWhile, this]
  | cons d ds ih =>
    have hd := hds d (by simp)
    have ihs := ih fun c hc => hds c (by simp [hc])
    simp only [List.cons_append, List.takeWhile, List.dropWhile, hd, List.append_eq]
    exact ⟨by rw [ihs.1], by rw [ihs.2]⟩

/-- Parse a nonempty run of decimal digits. -/
def parseNatChars (cs : List Char) : Option (Nat × List Char) :=
  let ds := cs.takeWhile Char.isDigit
  if ds.isEmpty then none
  else some (digitsToNat ds, cs.dropWhile Char.isDigit)

/-- Helper: `parseNatChars` consumes exactly the representation emitted by
`natChars`. -/
theorem parseNatChars_natChars (n : Nat) (rest : List Char)
    (hrest : ∀ c, rest.head? = some c → c.isDigit = false) :
    parseNatChars (natChars n ++ rest) = some (n, rest) := by
  have hsplit := takeWhile_dropWhile_append (natChars n) rest (natChars_spec n).2 hrest
  rw [parseNatChars]
  simp only [hsplit.1, hsplit.2]
  rw [if_neg (by simpa [List.isEmpty_iff] using (natChars_spec n).1)]
  rw [digitsToNat_natChars]

end Serial

namespace Serial

mutual
/-- JSON encoding of a manifest value, mirroring Python `json.dumps` with
its default separators `", "` and `": "` (strings restricted to characters
needing no escape). -/
def jsonEncode : JVal → List Char
  | JVal.jstr s => '"' :: (s.data ++ ['"'])
  | JVal.jint n => intChars n
  | JVal.jbool b => if b then ['t', 'r', 'u', 'e'] else ['f', 'a', 'l', 's', 'e']
  | JVal.jobj [] => ['\x7b', '\x7d']
  | JVal.jobj (kv :: rest) => '\x7b' :: (jsonMembers (kv :: rest) ++ ['\x7d'])

/-- The `", "`-separated `"key": value` members of a JSON object body. -/
def jsonMembers : List (String × JVal) → List Char
  | [] => []
  | [(k, v)] => '"' :: (k.data ++ '"' :: ':' :: ' ' :: jsonEncode v)
  | (k, v) :: kv2 :: rest =>
      '"' :: (k.data ++ '"' :: ':' :: ' ' ::
        (jsonEncode v ++ ',' :: ' ' :: jsonMembers (kv2 :: rest)))
end

mutual
/-- Structural size of a value, used as the parsing fuel bound. -/
def jsize : JVal → Nat
  | JVal.jobj kvs => 1 + msize kvs
  | _ => 1

def msize : List (String × JVal) → Nat
  | [] => 0
  | (_, v) :: rest => 1 + jsize v + msize rest
end

/-- A character that needs no JSON escaping: not a quote, not a backslash,
not a control character. -/
def jsonSafeChar (c : Char) : Bool :=
  !(c == '"') && !(c == '\\') && decide (32 ≤ c.toNat)

/-- A string of JSON-safe characters. -/
def jsonSafeStr (s : String) : Bool := s.data.all jsonSafeChar

mutual
/-- Well-formedness of a value for the modelled JSON fragment: every
string scalar and every key is JSON-safe. -/
def jsonWF : JVal → Bool
  | JVal.jstr s => jsonSafeStr s
  | JVal.jint _ => true
  | JVal.jbool _ => true
  | JVal.jobj kvs => jsonWFMembers kvs

def jsonWFMembers : List (String × JVal) → Bool
  | [] => true
  | (k, v) :: rest => jsonSafeStr k && jsonWF v && jsonWFMembers rest
end

/-- Parse the remainder of a JSON string literal (after the opening
quote), up to the closing quote. -/
def parseStrChars : List Char → Option (List Char × List Char)
  | [] => none
  | c :: rest =>
    if c == '"' then some ([], rest)
    else
      match parseStrChars rest with
      | some (s, r) => some (c :: s, r)
      | none => none

/-- Expect an exact literal prefix and drop it. -/
def dropLit : List Char → List Char → Option (List Char)
  | [], cs => some cs
  | l :: ls, c :: cs => if c == l then dropLit ls cs else none
  | _ :: _, [] => none

/-- Classify what follows a parsed object member: a `", "` separator
(more members follow) or the closing brace. -/
def memberSep : List Char → Option (Bool × List Char)
  | e :: cs5 =>
    if e == ',' then
      match cs5 with
      | ' ' :: cs6 => some (true, cs6)
      | _ => none
    else if e == '\x7d' then some (false, cs5)
    else none
  | [] => none

mutual
/-- Fuel-bounded JSON parser for one value (`parseJVal`) and for a
nonempty object body up to and including the closing brace
(`parseJMembers`). -/
def parseJVal : Nat → List Char → Option (JVal × List Char)
  | 0, _ => none
  | fuel + 1, cs =>
    match cs with
    | [] => none
    | c :: rest =>
      if c == '"' then
        (parseStrChars rest).bind fun sr => some (JVal.jstr (String.mk sr.1), sr.2)
      else if c == 't' then
        (dropLit ['r', 'u', 'e'] rest).bind fun r => some (JVal.jbool true, r)
      else if c == 'f' then
        (dropLit ['a', 'l', 's', 'e'] rest).bind fun r => some (JVal.jbool false, r)
      else if c == '\x7b' then
        match rest with
        | [] => none
        | d :: r2 =>
          if d == '\x7d' then some (JVal.jobj [], r2)
          else (parseJMembers fuel rest).bind fun kr => some (JVal.jobj kr.1, kr.2)
      else if c == '-' then
        (parseNatChars rest).bind fun nr => some (JVal.jint (-(nr.1 : Int)), nr.2)
      else if c.isDigit then
        (parseNatChars (c :: rest)).bind fun nr => some (JVal.jint (nr.1 : Int), nr.2)
      else none

/-- See `parseJVal`: parses `"key": value` members separated by `", "`,
consuming the closing brace. -/
def parseJMembers : Nat → List Char → Option (List (String × JVal) × List Char)
  | 0, _ => none
  | fuel + 1, cs =>
    match cs with
    | [] => none
    | c :: cs1 =>
      if c == '"' then
        (parseStrChars cs1).bind fun kv =>
          (dropLit [':', ' '] kv.2).bind fun cs3 =>
            (parseJVal fuel cs3).bind fun vr =>
              (memberSep vr.2).bind fun sep =>
                if sep.1 then
                  (parseJMembers fuel sep.2).bind fun mr =>
                    some ((String.mk kv.1, vr.1) :: mr.1, mr.2)
                else some ([(String.mk kv.1, vr.1)], sep.2)
      else none
end

end Serial

namespace Serial

/-- Helper: every value has positive size. -/
theorem jsize_pos (v : JVal) : 1 ≤ jsize v := by
  cases v <;> simp [jsize]

/-- Helper: a digit head rules out every non-digit parser arm. -/
theorem digit_head_arms (c : Char) (h : c.isDigit = true) :
    (c == '"') = false ∧ (c == 't') = false ∧ (c == 'f') = false ∧
    (c == '\x7b') = false ∧ (c == '-') = false := by
  refine ⟨?_, ?_, ?_, ?_, ?_⟩ <;>
    · rw [beq_eq_false_iff_ne]
      rintro rfl
      exact absurd h (by decide)

/-- Helper: a JSON-safe string contains no quote character. -/
theorem jsonSafeStr_no_quote (s : String) (h : jsonSafeStr s = true) :
    ∀ c ∈ s.data, (c == '"') = false := by
  intro c hc
  have := (List.all_eq_true.mp h) c hc
  simp only [jsonSafeChar, Bool.and_eq_true, Bool.not_eq_true'] at this
  exact this.1.1

/-- Helper: the string-literal body parser consumes exactly a quote-free
block up to the closing quote. -/
theorem parseStrChars_append (s rest : List Char)
    (hs : ∀ c ∈ s, (c == '"') = false) :
    parseStrChars (s ++ '"' :: rest) = some (s, rest) := by
  induction s with
  | nil => simp [parseStrChars]
  | cons c cs ih =>
    have hc := hs c (by simp)
    rw [List.cons_append, parseStrChars, if_neg (by simp [hc])]
    rw [ih fun d hd => hs d (by simp [hd])]

/-- Helper: a nonempty object body's encoding starts with a quote. -/
theorem jsonMembers_head (kv : String × JVal) (kvs : List (String × JVal)) :
    ∃ tail, jsonMembers (kv :: kvs) = '"' :: tail := by
  obtain ⟨k, v⟩ := kv
  cases kvs with
  | nil => exact ⟨_, rfl⟩
  | cons kv2 rest => exact ⟨_, rfl⟩

/-- Helper: pieces of a well-formed object body. -/
theorem jsonWFMembers_cons {k : String} {v : JVal} {rest : List (String × JVal)}
    (h : jsonWFMembers ((k, v) :: rest) = true) :
    jsonSafeStr k = true ∧ jsonWF v = true ∧ jsonWFMembers rest = true := by
  rw [jsonWFMembers, Bool.and_eq_true, Bool.and_eq_true] at h
  exact ⟨h.1.1, h.1.2, h.2⟩

/-- Helper: one parser step on a quote head. -/
theorem parseJVal_quote (fuel : Nat) (cs : List Char) :
    parseJVal (fuel + 1) ('"' :: cs) =
      (parseStrChars cs).bind fun sr => some (JVal.jstr (String.mk sr.1), sr.2) := rfl

/-- Helper: one parser step on the literal `true`. -/
theorem parseJVal_true (fuel : Nat) (cs : List Char) :
    parseJVal (fuel + 1) ('t' :: 'r' :: 'u' :: 'e' :: cs) = some (JVal.jbool true, cs) := rfl

/-- Helper: one parser step on the literal `false`. -/
theorem parseJVal_false (fuel : Nat) (cs : List Char) :
    parseJVal (fuel + 1) ('f' :: 'a' :: 'l' :: 's' :: 'e' :: cs) =
      some (JVal.jbool false, cs) := rfl

/-- Helper: one parser step on an empty object. -/
theorem parseJVal_emptyObj (fuel : Nat) (cs : List Char) :
    parseJVal (fuel + 1) ('\x7b' :: '\x7d' :: cs) = some (JVal.jobj [], cs) := rfl

/-- Helper: one parser step on a nonempty object (whose body starts with a
quoted key). -/
theorem parseJVal_objQuote (fuel : Nat) (cs : List Char) :
    parseJVal (fuel + 1) ('\x7b' :: '"' :: cs) =
      (parseJMembers fuel ('"' :: cs)).bind fun kr => some (JVal.jobj kr.1, kr.2) := rfl

/-- Helper: one parser step on a negative number. -/
theorem parseJVal_minus (fuel : Nat) (cs : List Char) :
    parseJVal (fuel + 1) ('-' :: cs) =
      (parseNatChars cs).bind fun nr => some (JVal.jint (-(nr.1 : Int)), nr.2) := rfl

/-- Helper: one parser step on a digit head. -/
theorem parseJVal_digit (fuel : Nat) (c : Char) (cs : List Char) (h : c.isDigit = true) :
    parseJVal (fuel + 1) (c :: cs) =
      (parseNatChars (c :: cs)).bind fun nr => some (JVal.jint (nr.1 : Int), nr.2) := by
  obtain ⟨h1, h2, h3, h4, h5⟩ := digit_head_arms c h
  rw [parseJVal.eq_def]
  simp [h1, h2, h3, h4, h5, h]

/-- Helper: one member-parser step on a quote head. -/
theorem parseJMembers_quote (fuel : Nat) (cs : List Char) :
    parseJMembers (fuel + 1) ('"' :: cs) =
      ((parseStrChars cs).bind fun kv =>
        (dropLit [':', ' '] kv.2).bind fun cs3 =>
          (parseJVal fuel cs3).bind fun vr =>
            (memberSep vr.2).bind fun sep =>
              if sep.1 then
                (parseJMembers fuel sep.2).bind fun mr =>
                  some ((String.mk kv.1, vr.1) :: mr.1, mr.2)
              else some ([(String.mk kv.1, vr.1)], sep.2)) := rfl

/-- Helper: dropping the `": "` separator. -/
theorem dropLit_colon_space (cs : List Char) :
    dropLit [':', ' '] (':' :: ' ' :: cs) = some cs := rfl

/-- Helper: dropping the space after a comma separator. -/
theorem memberSep_comma (cs : List Char) :
    memberSep (',' :: ' ' :: cs) = some (true, cs) := rfl

/-- Helper: a closing brace ends the member list. -/
theorem memberSep_rbrace (cs : List Char) :
    memberSep ('\x7d' :: cs) = some (false, cs) := rfl

/-- Helper: rebuilding a string from its character data. -/
theorem stringMk_data (s : String) : String.mk s.data = s := rfl

/-- The fuel-indexed round trip of the JSON fragment: parsing the
encoding of a well-formed value (with any non-digit-headed remainder)
returns the value and the remainder; likewise for a nonempty object body
followed by its closing brace. -/
theorem json_round (fuel : Nat) :
    (∀ v rest, jsonWF v = true → jsize v ≤ fuel →
      (∀ c, rest.head? = some c → c.isDigit = false) →
      parseJVal fuel (jsonEncode v ++ rest) = some (v, rest)) ∧
    (∀ kvs rest, kvs ≠ [] → jsonWFMembers kvs = true → msize kvs ≤ fuel →
      parseJMembers fuel (jsonMembers kvs ++ '\x7d' :: rest) = some (kvs, rest)) := by
  induction fuel with
  | zero =>
    constructor
    · intro v rest _ hsize _
      exact absurd hsize (by have := jsize_pos v; omega)
    · intro kvs rest hne hwf hsize
      cases kvs with
      | nil => exact absurd rfl hne
      | cons kv tail =>
        obtain ⟨k, v⟩ := kv
        rw [msize] at hsize
        exact absurd hsize (by omega)
  | succ fuel ih =>
    obtain ⟨ihv, ihm⟩ := ih
    constructor
    · intro v rest hwf hsize hrest
      cases v with
      | jstr s =>
        rw [jsonWF] at hwf
        have hns := jsonSafeStr_no_quote s hwf
        rw [jsonEncode, List.cons_append, List.append_assoc, List.singleton_append]
        rw [parseJVal_quote]
        simp only [parseStrChars_append s.data rest hns, Option.some_bind, stringMk_data]
      | jint n =>
        by_cases hn : n < 0
        · rw [jsonEncode, intChars, if_pos hn, List.cons_append]
          rw [parseJVal_minus]
          simp only [parseNatChars_natChars n.natAbs rest hrest, Option.some_bind]
          have : -(n.natAbs : Int) = n := by omega
          rw [this]
        · rw [jsonEncode, intChars, if_neg hn]
          obtain ⟨d, ds, hds⟩ : ∃ d ds, natChars n.toNat = d :: ds := by
            cases h : natChars n.toNat with
            | nil => exact absurd h (natChars_spec n.toNat).1
            | cons d ds => exact ⟨d, ds, rfl⟩
          have hdig : d.isDigit = true := (natChars_spec n.toNat).2 d (by rw [hds]; simp)
          rw [hds, List.cons_append]
          rw [parseJVal_digit fuel d (ds ++ rest) hdig]
          rw [← List.cons_append, ← hds]
          simp only [parseNatChars_natChars n.toNat rest hrest, Option.some_bind]
          have : (n.toNat : Int) = n := by omega
          rw [this]
      | jbool b =>
        cases b
        · rw [show jsonEncode (JVal.jbool false) = ['f', 'a', 'l', 's', 'e'] from rfl]
          simp only [List.cons_append, List.nil_append]
          rw [parseJVal_false]
        · rw [show jsonEncode (JVal.jbool true) = ['t', 'r', 'u', 'e'] from rfl]
          simp only [List.cons_append, List.nil_append]
          rw [parseJVal_true]
      | jobj kvs =>
        cases kvs with
        | nil =>
          rw [jsonEncode, List.cons_append, List.cons_append, List.nil_append]
          rw [parseJVal_emptyObj]
        | cons kv tail =>
          obtain ⟨mtail, hm⟩ := jsonMembers_head kv tail
          rw [jsonEncode, List.cons_append, List.append_assoc, List.singleton_append]
          rw [hm, List.cons_append, parseJVal_objQuote]
          rw [← List.cons_append, ← hm]
          rw [jsonWF] at hwf
          simp only [ihm (kv :: tail) rest (by simp) hwf (by rw [jsize] at hsize; omega),
            Option.some_bind]
    · intro kvs rest hne hwf hsize
      cases kvs with
      | nil => exact absurd rfl hne
      | cons kv tail =>
        obtain ⟨k, v⟩ := kv
        obtain ⟨hk, hv, htail⟩ := jsonWFMembers_cons hwf
        have hknq := jsonSafeStr_no_quote k hk
        rw [msize] at hsize
        cases tail with
        | nil =>
          rw [jsonMembers, List.cons_append, List.append_assoc, List.cons_append,
            List.cons_append, List.cons_append]
          rw [parseJMembers_quote]
          simp only [parseStrChars_append k.data _ hknq, Option.some_bind,
            dropLit_colon_space,
            ihv v ('\x7d' :: rest) hv (by omega)
              (by intro c hc; simp at hc; rw [← hc]; rfl),
            memberSep_rbrace, stringMk_data]
          rfl
        | cons kv2 tail2 =>
          rw [jsonMembers, List.cons_append, List.append_assoc, List.cons_append,
            List.cons_append, List.cons_append, List.append_assoc, List.cons_append,
            List.cons_append]
          rw [parseJMembers_quote]
          simp only [parseStrChars_append k.data _ hknq, Option.some_bind,
            dropLit_colon_space,
            ihv v (',' :: ' ' :: (jsonMembers (kv2 :: tail2) ++ '\x7d' :: rest)) hv
              (by have := jsize_pos v; omega)
              (by intro c hc; simp at hc; rw [← hc]; rfl),
            memberSep_comma,
            ihm (kv2 :: tail2) rest (by simp) htail (by have := jsize_pos v; omega),
            stringMk_data]
          rfl

end Serial

namespace Serial

mutual
/-- Helper: a value's structural size is bounded by the length of its
encoding. -/
theorem jsize_le_encLength : ∀ v : JVal, jsize v ≤ (jsonEncode v).length
  | JVal.jstr s => by simp [jsize, jsonEncode]
  | JVal.jint n => by
    have := (natChars_spec n.natAbs).1
    have := (natChars_spec n.toNat).1
    simp only [jsize, jsonEncode, intChars]
    by_cases hn : n < 0 <;>
      [skip; skip] <;> simp [hn] <;>
      cases h : natChars n.natAbs <;> cases h2 : natChars n.toNat <;> simp_all
  | JVal.jbool b => by cases b <;> simp [jsize, jsonEncode]
  | JVal.jobj [] => by simp [jsize, msize, jsonEncode]
  | JVal.jobj (kv :: rest) => by
    have h := msize_le_membersLength (kv :: rest)
    simp only [jsize, jsonEncode, List.length_cons, List.length_append]
    omega

/-- Helper: an object body's size is bounded by the length of its
encoding. -/
theorem msize_le_membersLength : ∀ kvs : List (String × JVal),
    msize kvs ≤ (jsonMembers kvs).length
  | [] => by simp [msize, jsonMembers]
  | [(k, v)] => by
    have h := jsize_le_encLength v
    simp only [msize, jsonMembers, List.length_cons, List.length_append]
    omega
  | (k, v) :: kv2 :: rest => by
    have h1 := jsize_le_encLength v
    have h2 := msize_le_membersLength (kv2 :: rest)
    rw [msize, jsonMembers]
    simp only [List.length_cons, List.length_append]
    omega
end

/-- Modelled from the spec: the JSON text of a manifest mapping, as
`get_k8s_manifest_json` obtains it from the external `json.dumps` (with
default separators) applied to the manifest dict. -/
def jsonDumps (m : List (String × JVal)) : String :=
  String.mk (jsonEncode (JVal.jobj m))

/-- Modelled from the spec: decoding JSON text back to a manifest value,
as the external `json.loads` does; the whole input must be consumed. -/
def jsonLoads (s : String) : Option JVal :=
  (parseJVal (s.length + 1) s.data).bind fun vr =>
    if vr.2.isEmpty then some vr.1 else none

/-- Helper: the JSON encoding of a well-formed manifest mapping decodes
back to exactly the same mapping. -/
theorem jsonLoads_jsonDumps (m : List (String × JVal))
    (hwf : jsonWF (JVal.jobj m) = true) :
    jsonLoads (jsonDumps m) = some (JVal.jobj m) := by
  have hlen : (jsonDumps m).length = (jsonEncode (JVal.jobj m)).length := rfl
  have hdata : (jsonDumps m).data = jsonEncode (JVal.jobj m) := rfl
  have hfuel : jsize (JVal.jobj m) ≤ (jsonEncode (JVal.jobj m)).length + 1 := by
    have := jsize_le_encLength (JVal.jobj m)
    omega
  have hround := (json_round ((jsonEncode (JVal.jobj m)).length + 1)).1
    (JVal.jobj m) [] hwf hfuel (by intro c hc; simp at hc)
  rw [List.append_nil] at hround
  rw [jsonLoads, hdata, hlen, hround]
  rfl

end Serial

namespace Serial

/-- Take characters up to (and consuming) the first occurrence of `stop`. -/
def takeUntil (stop : Char) : List Char → Option (List Char × List Char)
  | [] => none
  | c :: rest =>
    if c == stop then some ([], rest)
    else
      match takeUntil stop rest with
      | some (s, r) => some (c :: s, r)
      | none => none

/-- Helper: `takeUntil` splits exactly at the first stop character. -/
theorem takeUntil_append (stop : Char) (s rest : List Char)
    (hs : ∀ c ∈ s, (c == stop) = false) :
    takeUntil stop (s ++ stop :: rest) = some (s, rest) := by
  induction s with
  | nil => simp [takeUntil]
  | cons c cs ih =>
    have hc := hs c (by simp)
    rw [List.cons_append, takeUntil, if_neg (by simp [hc])]
    rw [ih fun d hd => hs d (by simp [hd])]

/-- A character allowed in a plain (unquoted) YAML scalar in this model:
alphanumeric or one of `-`, `_`, `.`, `/`. -/
def yamlSafeChar (c : Char) : Bool :=
  c.isAlphanum || c == '-' || c == '_' || c == '.' || c == '/'

/-- Words that PyYAML's resolver would turn into booleans or null. -/
def yamlReserved : List String :=
  ["true", "false", "True", "False", "TRUE", "FALSE", "yes", "no", "Yes", "No",
   "YES", "NO", "on", "off", "On", "Off", "ON", "OFF", "null", "Null", "NULL"]

/-- A string that round-trips as a plain YAML scalar: nonempty, starts
with a letter, made of safe characters, and not a reserved word. -/
def yamlPlainSafe (s : String) : Bool :=
  (match s.data with
   | [] => false
   | c :: _ => c.isAlpha) && s.data.all yamlSafeChar && !(yamlReserved.contains s)

mutual
/-- Well-formedness of a value for the modelled YAML fragment: every
string scalar and key is plain-safe and the keys of every mapping are
pairwise distinct. -/
def yamlWF : JVal → Bool
  | JVal.jstr s => yamlPlainSafe s
  | JVal.jint _ => true
  | JVal.jbool _ => true
  | JVal.jobj kvs => yamlWFKvs kvs

/-- See `yamlWF`. -/
def yamlWFKvs : List (String × JVal) → Bool
  | [] => true
  | (k, v) :: rest =>
    yamlPlainSafe k && !((rest.map Prod.fst).contains k) && yamlWF v && yamlWFKvs rest
end

/-- The single-line YAML rendering of a scalar (for a nonempty mapping the
catch-all line is never used: `objLines` puts it on its own lines). -/
def scalarChars : JVal → List Char
  | JVal.jstr s => s.data
  | JVal.jint n => intChars n
  | JVal.jbool b => if b then ['t', 'r', 'u', 'e'] else ['f', 'a', 'l', 's', 'e']
  | JVal.jobj _ => ['\x7b', '\x7d']

/-- Sort a mapping's entries by key, code-point-lexicographically — what
`yaml.safe_dump(..., sort_keys=True)` (its default) does. -/
def sortKeys (kvs : List (String × JVal)) : List (String × JVal) :=
  List.insertionSort (fun a b => a.1 ≤ b.1) kvs

mutual
/-- The canonical form of a value: every mapping recursively sorted by
key.  `yaml.safe_dump` emits exactly the canonical form of its argument. -/
def canon : JVal → JVal
  | JVal.jstr s => JVal.jstr s
  | JVal.jint n => JVal.jint n
  | JVal.jbool b => JVal.jbool b
  | JVal.jobj kvs => JVal.jobj (sortKeys (canonKvs kvs))

/-- See `canon`. -/
def canonKvs : List (String × JVal) → List (String × JVal)
  | [] => []
  | (k, v) :: rest => (k, canon v) :: canonKvs rest
end

/-- The block-style lines (indent, content) of a sorted mapping, as
`yaml.safe_dump` emits them with two-space nested indentation: scalars as
`key: scalar` on one line, nonempty sub-mappings as `key:` followed by
the sub-mapping's lines indented two further. -/
def objLines : Nat → List (String × JVal) → List (Nat × List Char)
  | _, [] => []
  | ind, (k, JVal.jobj (kv :: kvs)) :: rest =>
    (ind, k.data ++ [':']) ::
      (objLines (ind + 2) (kv :: kvs) ++ objLines ind rest)
  | ind, (k, v) :: rest =>
    (ind, k.data ++ ':' :: ' ' :: scalarChars v) :: objLines ind rest

/-- Render lines to text: each line is its indent in spaces, its content,
and a newline. -/
def renderLines (ls : List (Nat × List Char)) : List Char :=
  ls.foldr (fun l acc => List.replicate l.1 ' ' ++ (l.2 ++ '\n' :: acc)) []

/-- Count and strip the leading spaces of a line. -/
def countIndent : List Char → Nat × List Char
  | [] => (0, [])
  | c :: cs =>
    if c == ' ' then
      let p := countIndent cs
      (p.1 + 1, p.2)
    else (0, c :: cs)

/-- Split text into (indent, content) lines; every line must end with a
newline and have nonempty content. -/
def toLines : Nat → List Char → Option (List (Nat × List Char))
  | _, [] => some []
  | 0, _ :: _ => none
  | fuel + 1, c :: cs =>
    (takeUntil '\n' (c :: cs)).bind fun lr =>
      let p := countIndent lr.1
      if p.2.isEmpty then none
      else
        (toLines fuel lr.2).bind fun ls => some ((p.1, p.2) :: ls)

/-- Resolve a plain YAML scalar the way `yaml.safe_load`'s resolver does
on this fragment: flow-empty mapping, booleans, integers, else a plain
string. -/
def resolveScalar (sc : List Char) : Option JVal :=
  if sc = ['\x7b', '\x7d'] then some (JVal.jobj [])
  else if sc = ['t', 'r', 'u', 'e'] then some (JVal.jbool true)
  else if sc = ['f', 'a', 'l', 's', 'e'] then some (JVal.jbool false)
  else
    match sc with
    | [] => none
    | c :: cs =>
      if c == '-' then
        (parseNatChars cs).bind fun nr =>
          if nr.2.isEmpty then some (JVal.jint (-(nr.1 : Int))) else none
      else if c.isDigit then
        (parseNatChars (c :: cs)).bind fun nr =>
          if nr.2.isEmpty then some (JVal.jint (nr.1 : Int)) else none
      else if yamlPlainSafe (String.mk (c :: cs)) then
        some (JVal.jstr (String.mk (c :: cs)))
      else none

/-- Classify what follows a parsed key: nothing (a nested mapping on the
following lines, `none`) or a space then a scalar (`some scalar`). -/
def keyTail : List Char → Option (Option (List Char))
  | [] => some none
  | c :: sc => if c == ' ' then some (some sc) else none

/-- Block parser for a mapping at a given indentation: a line `key:`
opens a nested mapping two columns deeper, a line `key: scalar` is a
scalar entry; a line at any other indentation ends this mapping. -/
def parseYObj : Nat → Nat → List (Nat × List Char) →
    Option (List (String × JVal) × List (Nat × List Char))
  | 0, _, _ => none
  | fuel + 1, ind, lines =>
    match lines with
    | [] => some ([], [])
    | (i, content) :: rest =>
      if i == ind then
        (takeUntil ':' content).bind fun kc =>
          if kc.1.isEmpty then none
          else
            (keyTail kc.2).bind fun sc? =>
              sc?.elim
                ((parseYObj fuel (ind + 2) rest).bind fun cr =>
                  if cr.1.isEmpty then none
                  else
                    (parseYObj fuel ind cr.2).bind fun sr =>
                      some ((String.mk kc.1, JVal.jobj cr.1) :: sr.1, sr.2))
                (fun sc =>
                  (resolveScalar sc).bind fun v =>
                    (parseYObj fuel ind rest).bind fun sr =>
                      some ((String.mk kc.1, v) :: sr.1, sr.2))
      else some ([], lines)

/-- Modelled from the spec: the YAML text of a manifest mapping, as
`get_k8s_manifest_yaml` obtains it from the external `yaml.safe_dump`
(block style, two-space indentation, sorted keys, `{}` for the empty
mapping). -/
def yamlDumps (m : List (String × JVal)) : String :=
  match sortKeys (canonKvs m) with
  | [] => String.mk ['\x7b', '\x7d', '\n']
  | kv :: kvs => String.mk (renderLines (objLines 0 (kv :: kvs)))

/-- Modelled from the spec: decoding YAML text back to a manifest value,
as the external `yaml.safe_load` does on this fragment. -/
def yamlLoads (s : String) : Option JVal :=
  if s.data = ['\x7b', '\x7d', '\n'] then some (JVal.jobj [])
  else
    (toLines s.length s.data).bind fun lines =>
      (parseYObj (lines.length + 1) 0 lines).bind fun pr =>
        if pr.2.isEmpty then some (JVal.jobj pr.1) else none

end Serial

namespace Serial

/-- Helper: a safe YAML character is not a newline, colon, space, or
opening brace. -/
theorem yamlSafeChar_facts (c : Char) (h : yamlSafeChar c = true) :
    (c == '\n') = false ∧ (c == ':') = false ∧ (c == ' ') = false ∧
    (c == '\x7b') = false := by
  refine ⟨?_, ?_, ?_, ?_⟩ <;>
    · rw [beq_eq_false_iff_ne]
      rintro rfl
      exact absurd h (by decide)

/-- Helper: the pieces of a plain-safe string: nonempty with a letter
head, all characters safe, not a reserved word. -/
theorem yamlPlainSafe_pieces (s : String) (h : yamlPlainSafe s = true) :
    s.data ≠ [] ∧ (∀ c, s.data.head? = some c → c.isAlpha = true) ∧
    (∀ c ∈ s.data, yamlSafeChar c = true) ∧ yamlReserved.contains s = false := by
  rw [yamlPlainSafe, Bool.and_eq_true, Bool.and_eq_true] at h
  obtain ⟨⟨hhead, hall⟩, hres⟩ := h
  refine ⟨?_, ?_, fun c hc => (List.all_eq_true.mp hall) c hc, by
    rw [← Bool.not_eq_true]
    simpa using hres⟩
  · cases hd : s.data with
    | nil => rw [hd] at hhead; exact absurd hhead (by simp)
    | cons c cs => simp [hd]
  · intro c hc
    cases hd : s.data with
    | nil => rw [hd] at hc; exact absurd hc (by simp)
    | cons d ds =>
      rw [hd] at hhead hc
      simp at hc
      rw [← hc]
      exact hhead

/-- Helper: a letter head is not a digit, minus, or brace, and letters
are safe. -/
theorem alpha_head_facts (c : Char) (h : c.isAlpha = true) :
    c.isDigit = false ∧ (c == '-') = false ∧ (c == '\x7b') = false ∧
    (c == ' ') = false := by
  have hrange : (65 ≤ c.toNat ∧ c.toNat ≤ 90) ∨ (97 ≤ c.toNat ∧ c.toNat ≤ 122) := by
    simp only [Char.isAlpha, Char.isUpper, Char.isLower, Bool.or_eq_true,
      Bool.and_eq_true, decide_eq_true_eq] at h
    rcases h with ⟨h1, h2⟩ | ⟨h1, h2⟩
    · exact Or.inl ⟨h1, h2⟩
    · exact Or.inr ⟨h1, h2⟩
  refine ⟨?_, ?_, ?_, ?_⟩
  · rw [← Bool.not_eq_true]
    simp only [Char.isDigit, Bool.and_eq_true, decide_eq_true_eq]
    rintro ⟨h1, h2⟩
    change 48 ≤ c.toNat at h1
    change c.toNat ≤ 57 at h2
    omega
  all_goals
    rw [beq_eq_false_iff_ne]
    rintro rfl
    exact absurd hrange (by decide)

end Serial

namespace Serial

/-- Helper: digits are neither colons nor newlines. -/
theorem digit_not_colon_newline (c : Char) (h : c.isDigit = true) :
    (c == ':') = false ∧ (c == '\n') = false := by
  constructor <;>
    · rw [beq_eq_false_iff_ne]
      rintro rfl
      exact absurd h (by decide)

/-- Helper: the single-line rendering of a well-formed scalar contains no
colon and no newline. -/
theorem scalarChars_facts (v : JVal) (hwf : yamlWF v = true) :
    ∀ c ∈ scalarChars v, (c == ':') = false ∧ (c == '\n') = false := by
  cases v with
  | jstr s =>
    intro c hc
    rw [yamlWF] at hwf
    obtain ⟨-, -, hsafe, -⟩ := yamlPlainSafe_pieces s hwf
    obtain ⟨h1, h2, h3, h4⟩ := yamlSafeChar_facts c (hsafe c hc)
    exact ⟨h2, h1⟩
  | jint n =>
    intro c hc
    rw [scalarChars, intChars] at hc
    by_cases hn : n < 0
    · rw [if_pos hn] at hc
      rcases List.mem_cons.mp hc with rfl | hm
      · exact ⟨by decide, by decide⟩
      · exact digit_not_colon_newline c ((natChars_spec n.natAbs).2 c hm)
    · rw [if_neg hn] at hc
      exact digit_not_colon_newline c ((natChars_spec n.toNat).2 c hc)
  | jbool b =>
    intro c hc
    cases b <;> rw [scalarChars] at hc <;> simp at hc <;>
      rcases hc with rfl | rfl | rfl | rfl | rfl <;> exact ⟨by decide, by decide⟩
  | jobj kvs =>
    intro c hc
    rw [scalarChars] at hc
    rcases List.mem_cons.mp hc with rfl | hm
    · exact ⟨by decide, by decide⟩
    · rw [List.mem_singleton.mp hm]
      exact ⟨by decide, by decide⟩

/-- Helper: resolving the rendering of a well-formed scalar (anything but
a nonempty mapping) recovers it. -/
theorem resolveScalar_scalarChars (v : JVal) (hwf : yamlWF v = true)
    (hno : ∀ kv kvs, v ≠ JVal.jobj (kv :: kvs)) :
    resolveScalar (scalarChars v) = some v := by
  cases v with
  | jstr s =>
    rw [yamlWF] at hwf
    obtain ⟨hne, hhead, hsafe, hres⟩ := yamlPlainSafe_pieces s hwf
    obtain ⟨c, cs, hd⟩ : ∃ c cs, s.data = c :: cs := by
      cases h : s.data with
      | nil => exact absurd h hne
      | cons c cs => exact ⟨c, cs, rfl⟩
    have halpha : c.isAlpha = true := hhead c (by rw [hd]; rfl)
    obtain ⟨hdig, hminus, hbrace, hspace⟩ := alpha_head_facts c halpha
    rw [scalarChars, hd, resolveScalar]
    rw [if_neg (by
      intro heq
      rw [List.cons.injEq] at heq
      exact (beq_eq_false_iff_ne.mp hbrace) heq.1)]
    rw [if_neg (by
      intro heq
      apply Bool.true_eq_false.mp
      rw [← hres]
      have hs : s = "true" := by
        rw [← stringMk_data s, hd, heq]
      rw [hs]
      rfl)]
    rw [if_neg (by
      intro heq
      apply Bool.true_eq_false.mp
      rw [← hres]
      have hs : s = "false" := by
        rw [← stringMk_data s, hd, heq]
      rw [hs]
      rfl)]
    rw [if_neg (by simp [hminus]), if_neg (by simp [hdig])]
    rw [if_pos (by rw [← hd, stringMk_data]; exact hwf)]
    rw [← hd, stringMk_data]
  | jint n =>
    by_cases hn : n < 0
    · rw [scalarChars, intChars, if_pos hn, resolveScalar]
      rw [if_neg (by simp), if_neg (by simp), if_neg (by simp)]
      rw [if_pos (by rfl)]
      have hparse : parseNatChars (natChars n.natAbs) = some (n.natAbs, []) := by
        rw [← List.append_nil (natChars n.natAbs)]
        exact parseNatChars_natChars n.natAbs [] (by intro c hc; simp at hc)
      rw [hparse, Option.some_bind]
      simp only [List.isEmpty_nil, if_pos]
      have : -(n.natAbs : Int) = n := by omega
      rw [this]
    · rw [scalarChars, intChars, if_neg hn]
      obtain ⟨d, ds, hds⟩ : ∃ d ds, natChars n.toNat = d :: ds := by
        cases h : natChars n.toNat with
        | nil => exact absurd h (natChars_spec n.toNat).1
        | cons d ds => exact ⟨d, ds, rfl⟩
      have hdig : d.isDigit = true := (natChars_spec n.toNat).2 d (by rw [hds]; simp)
      obtain ⟨hq, ht, hf, hbrace, hminus⟩ := digit_head_arms d hdig
      rw [hds, resolveScalar]
      rw [if_neg (by
        intro heq
        rw [List.cons.injEq] at heq
        exact (beq_eq_false_iff_ne.mp hbrace) heq.1)]
      rw [if_neg (by
        intro heq
        rw [List.cons.injEq] at heq
        exact (beq_eq_false_iff_ne.mp ht) heq.1)]
      rw [if_neg (by
        intro heq
        rw [List.cons.injEq] at heq
        exact (beq_eq_false_iff_ne.mp hf) heq.1)]
      rw [if_neg (by simp [hminus]), if_pos hdig]
      rw [← hds]
      have hparse : parseNatChars (natChars n.toNat) = some (n.toNat, []) := by
        rw [← List.append_nil (natChars n.toNat)]
        exact parseNatChars_natChars n.toNat [] (by intro c hc; simp at hc)
      rw [hparse, Option.some_bind]
      simp only [List.isEmpty_nil, if_pos]
      have : (n.toNat : Int) = n := by omega
      rw [this]
  | jbool b => cases b <;> rfl
  | jobj kvs =>
    cases kvs with
    | nil => rfl
    | cons kv tail => exact absurd rfl (hno kv tail)

end Serial

namespace Serial

/-- Helper: pieces of a well-formed mapping body. -/
theorem yamlWFKvs_cons {k : String} {v : JVal} {rest : List (String × JVal)}
    (h : yamlWFKvs ((k, v) :: rest) = true) :
    yamlPlainSafe k = true ∧ (rest.map Prod.fst).contains k = false ∧
    yamlWF v = true ∧ yamlWFKvs rest = true := by
  rw [yamlWFKvs, Bool.and_eq_true, Bool.and_eq_true, Bool.and_eq_true] at h
  refine ⟨h.1.1.1, ?_, h.1.2, h.2⟩
  have := h.1.1.2
  rw [Bool.not_eq_true'] at this
  exact this

/-- Helper: rendering the empty body yields no lines. -/
theorem objLines_nil (ind : Nat) : objLines ind [] = [] := by rw [objLines]

/-- Helper: rendering an entry with a nonempty sub-mapping. -/
theorem objLines_cons_obj (ind : Nat) (k : String) (kv2 : String × JVal)
    (rest2 rest : List (String × JVal)) :
    objLines ind ((k, JVal.jobj (kv2 :: rest2)) :: rest) =
      (ind, k.data ++ [':']) ::
        (objLines (ind + 2) (kv2 :: rest2) ++ objLines ind rest) := by
  rw [objLines]

/-- Helper: rendering an entry with a scalar value. -/
theorem objLines_cons_scalar (ind : Nat) (k : String) (v : JVal)
    (rest : List (String × JVal)) (hno : ∀ kv kvs, v ≠ JVal.jobj (kv :: kvs)) :
    objLines ind ((k, v) :: rest) =
      (ind, k.data ++ ':' :: ' ' :: scalarChars v) :: objLines ind rest := by
  cases v with
  | jobj kvs2 =>
    cases kvs2 with
    | nil => rw [objLines] <;> simp
    | cons a b => exact absurd rfl (hno a b)
  | jstr s => rw [objLines] <;> simp
  | jint n => rw [objLines] <;> simp
  | jbool b => rw [objLines] <;> simp

/-- Helper: every first line of a rendered mapping sits at the mapping's
own indentation. -/
theorem objLines_head_indent (ind : Nat) (kvs : List (String × JVal)) :
    ∀ l, (objLines ind kvs).head? = some l → l.1 = ind := by
  intro l hl
  cases kvs with
  | nil => rw [objLines_nil] at hl; exact absurd hl (by simp)
  | cons kv rest =>
    obtain ⟨k, v⟩ := kv
    by_cases hobj : ∃ kv2 rest2, v = JVal.jobj (kv2 :: rest2)
    · obtain ⟨kv2, rest2, rfl⟩ := hobj
      rw [objLines_cons_obj] at hl
      simp at hl
      rw [← hl]
    · rw [objLines_cons_scalar ind k v rest
        (fun a b hab => hobj ⟨a, b, hab⟩)] at hl
      simp at hl
      rw [← hl]

/-- Helper: the content of an entry line for a key and a scalar tail is
nonempty, starts with a letter (not a space) and contains no newline. -/
theorem entry_content_good (k : String) (tail : List Char)
    (hk : yamlPlainSafe k = true)
    (htail : ∀ c ∈ tail, (c == '\n') = false) :
    k.data ++ tail ≠ [] ∧
    (∀ c, (k.data ++ tail).head? = some c → (c == ' ') = false) ∧
    (∀ c ∈ k.data ++ tail, (c == '\n') = false) := by
  obtain ⟨hne, hhead, hsafe, -⟩ := yamlPlainSafe_pieces k hk
  obtain ⟨c0, cs0, hd⟩ : ∃ c0 cs0, k.data = c0 :: cs0 := by
    cases h : k.data with
    | nil => exact absurd h hne
    | cons c0 cs0 => exact ⟨c0, cs0, rfl⟩
  refine ⟨by simp [hd], ?_, ?_⟩
  · intro c hc
    rw [hd] at hc
    simp at hc
    rw [← hc]
    exact (alpha_head_facts c0 (hhead c0 (by rw [hd]; rfl))).2.2.2
  · intro c hc
    rcases List.mem_append.mp hc with hm | hm
    · exact (yamlSafeChar_facts c (hsafe c hm)).1
    · exact htail c hm

/-- Helper: every line a well-formed mapping renders to has nonempty
content that does not start with a space and contains no newline. -/
theorem objLines_good (fuel : Nat) : ∀ ind kvs, (objLines ind kvs).length ≤ fuel →
    yamlWFKvs kvs = true →
    ∀ l ∈ objLines ind kvs,
      l.2 ≠ [] ∧ (∀ c, l.2.head? = some c → (c == ' ') = false) ∧
      (∀ c ∈ l.2, (c == '\n') = false) := by
  induction fuel with
  | zero =>
    intro ind kvs hlen hwf l hl
    rw [Nat.le_zero, List.length_eq_zero] at hlen
    rw [hlen] at hl
    exact absurd hl (by simp)
  | succ fuel ih =>
    intro ind kvs hlen hwf l hl
    cases kvs with
    | nil => rw [objLines_nil] at hl; exact absurd hl (by simp)
    | cons kv rest =>
      obtain ⟨k, v⟩ := kv
      obtain ⟨hk, hnd, hv, hrest⟩ := yamlWFKvs_cons hwf
      have hscalar : ∀ w : JVal, yamlWF w = true →
          (∀ c ∈ ':' :: ' ' :: scalarChars w, (c == '\n') = false) := by
        intro w hw c hc
        rcases List.mem_cons.mp hc with rfl | hc2
        · decide
        rcases List.mem_cons.mp hc2 with rfl | hc3
        · decide
        · exact (scalarChars_facts w hw c hc3).2
      by_cases hobj : ∃ kv2 rest2, v = JVal.jobj (kv2 :: rest2)
      · obtain ⟨kv2, rest2, rfl⟩ := hobj
        rw [objLines_cons_obj] at hl hlen
        rcases List.mem_cons.mp hl with rfl | hm
        · refine entry_content_good k [':'] hk ?_
          intro c hc
          rw [List.mem_singleton.mp hc]
          decide
        rcases List.mem_append.mp hm with hm2 | hm2
        · exact ih (ind + 2) (kv2 :: rest2)
            (by simp at hlen ⊢; omega) (by rw [yamlWF] at hv; exact hv) l hm2
        · exact ih ind rest (by simp at hlen ⊢; omega) hrest l hm2
      · have hno : ∀ a b, v ≠ JVal.jobj (a :: b) := fun a b hab => hobj ⟨a, b, hab⟩
        rw [objLines_cons_scalar ind k v rest hno] at hl hlen
        rcases List.mem_cons.mp hl with rfl | hm
        · exact entry_content_good k _ hk (hscalar v hv)
        · exact ih ind rest (by simp at hlen; omega) hrest l hm

end Serial

namespace Serial

/-- Helper: rendering one line and the rest. -/
theorem renderLines_cons (l : Nat × List Char) (rest : List (Nat × List Char)) :
    renderLines (l :: rest) =
      List.replicate l.1 ' ' ++ (l.2 ++ '\n' :: renderLines rest) := rfl

/-- Helper: there are at least as many characters as lines. -/
theorem length_le_renderLines (ls : List (Nat × List Char)) :
    ls.length ≤ (renderLines ls).length := by
  induction ls with
  | nil => simp [renderLines]
  | cons l rest ih =>
    rw [renderLines_cons]
    simp only [List.length_cons, List.length_append]
    omega

/-- Helper: counting the indentation of a rendered line recovers it. -/
theorem countIndent_replicate (i : Nat) (content : List Char)
    (hhead : ∀ c, content.head? = some c → (c == ' ') = false) :
    countIndent (List.replicate i ' ' ++ content) = (i, content) := by
  induction i with
  | zero =>
    rw [List.replicate_zero, List.nil_append]
    cases content with
    | nil => rfl
    | cons c cs =>
      rw [countIndent, if_neg (by simp [hhead c rfl])]
  | succ i ih =>
    rw [List.replicate_succ, List.cons_append, countIndent, if_pos (by rfl), ih]

/-- Helper: splitting rendered text recovers the lines, provided each
line's content is nonempty, does not start with a space and contains no
newline. -/
theorem toLines_renderLines : ∀ ls : List (Nat × List Char),
    (∀ l ∈ ls, l.2 ≠ [] ∧ (∀ c, l.2.head? = some c → (c == ' ') = false) ∧
      (∀ c ∈ l.2, (c == '\n') = false)) →
    ∀ fuel, ls.length ≤ fuel → toLines fuel (renderLines ls) = some ls := by
  intro ls
  induction ls with
  | nil =>
    intro _ fuel _
    rw [show renderLines [] = [] from rfl]
    cases fuel <;> rfl
  | cons l rest ih =>
    intro hgood fuel hlen
    obtain ⟨hne, hhead, hnl⟩ := hgood l (by simp)
    cases fuel with
    | zero => simp at hlen
    | succ fuel =>
      obtain ⟨c, cs, hshape⟩ : ∃ c cs, renderLines (l :: rest) = c :: cs := by
        rw [renderLines_cons]
        cases hrep : List.replicate l.1 ' ' with
        | nil =>
          cases hc : l.2 with
          | nil => exact absurd hc hne
          | cons c cs => exact ⟨c, cs ++ '\n' :: renderLines rest, by simp [hc]⟩
        | cons d ds =>
          exact ⟨d, ds ++ (l.2 ++ '\n' :: renderLines rest), by simp⟩
      rw [hshape, toLines, ← hshape, renderLines_cons]
      rw [show List.replicate l.1 ' ' ++ (l.2 ++ '\n' :: renderLines rest)
          = (List.replicate l.1 ' ' ++ l.2) ++ '\n' :: renderLines rest by
        rw [List.append_assoc]]
      rw [takeUntil_append '\n' (List.replicate l.1 ' ' ++ l.2) (renderLines rest)
        (by
          intro d hd
          rcases List.mem_append.mp hd with hm | hm
          · rw [List.eq_of_mem_replicate hm]
            decide
          · exact hnl d hm)]
      rw [Option.some_bind]
      simp only [countIndent_replicate l.1 l.2 hhead]
      rw [if_neg (by simpa [List.isEmpty_iff] using hne)]
      rw [ih (fun q hq => hgood q (by simp [hq])) fuel (by simp at hlen; omega)]
      rfl

end Serial

namespace Serial

/-- The fuel-indexed round trip of the YAML block fragment: parsing the
lines of a well-formed mapping (followed by any lines of strictly smaller
indentation) returns the mapping and the remaining lines. -/
theorem yaml_round (fuel : Nat) : ∀ ind kvs restLines,
    yamlWFKvs kvs = true →
    (objLines ind kvs).length + 1 ≤ fuel →
    (∀ l, restLines.head? = some l → l.1 < ind) →
    parseYObj fuel ind (objLines ind kvs ++ restLines) = some (kvs, restLines) := by
  induction fuel with
  | zero =>
    intro ind kvs restLines _ hlen _
    omega
  | succ fuel ih =>
    intro ind kvs restLines hwf hlen hrestLt
    cases kvs with
    | nil =>
      rw [objLines_nil, List.nil_append]
      cases restLines with
      | nil => rfl
      | cons l ls =>
        have hlt := hrestLt l rfl
        obtain ⟨i, content⟩ := l
        rw [parseYObj, if_neg (by simp at hlt ⊢; omega)]
    | cons kv rest =>
      obtain ⟨k, v⟩ := kv
      obtain ⟨hk, hnd, hv, hwfrest⟩ := yamlWFKvs_cons hwf
      obtain ⟨hkne, hkhead, hksafe, -⟩ := yamlPlainSafe_pieces k hk
      have hkcolon : ∀ c ∈ k.data, (c == ':') = false := fun c hc =>
        (yamlSafeChar_facts c (hksafe c hc)).2.1
      have hkemp : k.data.isEmpty = false := by
        cases h : k.data with
        | nil => exact absurd h hkne
        | cons c cs => rfl
      have hsib := ih ind rest restLines hwfrest
      by_cases hobj : ∃ kv2 rest2, v = JVal.jobj (kv2 :: rest2)
      · obtain ⟨kv2, rest2, rfl⟩ := hobj
        rw [objLines_cons_obj] at hlen ⊢
        rw [List.cons_append, List.append_assoc, parseYObj, if_pos (by simp)]
        have hta : takeUntil ':' (k.data ++ [':']) = some (k.data, []) := by
          rw [show (k.data ++ [':'] : List Char) = k.data ++ ':' :: [] from rfl]
          exact takeUntil_append ':' k.data [] hkcolon
        have hchild := ih (ind + 2) (kv2 :: rest2) (objLines ind rest ++ restLines)
          (by rw [yamlWF] at hv; exact hv)
          (by simp only [List.length_cons, List.length_append] at hlen ⊢; omega)
          (by
            intro l hl
            cases hr : objLines ind rest with
            | nil =>
              rw [hr, List.nil_append] at hl
              have := hrestLt l hl
              omega
            | cons l0 ls0 =>
              rw [hr, List.cons_append] at hl
              simp at hl
              have := objLines_head_indent ind rest l (by rw [hr, ← hl]; rfl)
              omega)
        have hsib2 := hsib
          (by simp only [List.length_cons, List.length_append] at hlen ⊢; omega)
          hrestLt
        simp only [hta, Option.some_bind, hkemp, Bool.false_eq_true, if_false,
          keyTail, Option.elim_none, hchild, List.isEmpty_cons, hsib2,
          stringMk_data]
      · have hno : ∀ a b, v ≠ JVal.jobj (a :: b) := fun a b hab => hobj ⟨a, b, hab⟩
        rw [objLines_cons_scalar ind k v rest hno] at hlen ⊢
        rw [List.cons_append, parseYObj, if_pos (by simp)]
        have hta : takeUntil ':' (k.data ++ ':' :: ' ' :: scalarChars v)
            = some (k.data, ' ' :: scalarChars v) :=
          takeUntil_append ':' k.data (' ' :: scalarChars v) hkcolon
        have hsib2 := hsib
          (by simp only [List.length_cons] at hlen ⊢; omega)
          hrestLt
        simp only [hta, Option.some_bind, hkemp, Bool.false_eq_true, if_false,
          keyTail, Option.elim_some, resolveScalar_scalarChars v hv hno,
          hsib2, stringMk_data]
        simp only [show ((' ' == ' ') = true) from rfl, if_true, Option.some_bind,
          Option.elim_some, resolveScalar_scalarChars v hv hno]

end Serial

namespace Serial

instance : IsTotal (String × JVal) (fun a b => a.1 ≤ b.1) :=
  ⟨fun a b => le_total a.1 b.1⟩

instance : IsTrans (String × JVal) (fun a b => a.1 ≤ b.1) :=
  ⟨fun _ _ _ hab hbc => le_trans hab hbc⟩

/-- Helper: sorting permutes the entries. -/
theorem sortKeys_perm (kvs : List (String × JVal)) : (sortKeys kvs).Perm kvs :=
  List.perm_insertionSort _ kvs

/-- Helper: sorting twice is sorting once. -/
theorem sortKeys_sorted_eq (kvs : List (String × JVal)) :
    sortKeys (sortKeys kvs) = sortKeys kvs :=
  List.Sorted.insertionSort_eq (List.sorted_insertionSort _ kvs)

/-- Helper: canonicalizing the entries keeps the keys. -/
theorem canonKvs_keys (kvs : List (String × JVal)) :
    (canonKvs kvs).map Prod.fst = kvs.map Prod.fst := by
  induction kvs with
  | nil => rfl
  | cons kv rest ih =>
    obtain ⟨k, v⟩ := kv
    rw [canonKvs, List.map_cons, List.map_cons, ih]

/-- Helper: canonicalizing the entries maps `canon` over the looked-up
values. -/
theorem canonKvs_lookup (kvs : List (String × JVal)) (k : String) :
    (canonKvs kvs).lookup k = (kvs.lookup k).map canon := by
  induction kvs with
  | nil => rfl
  | cons kv rest ih =>
    obtain ⟨k1, v⟩ := kv
    rw [canonKvs]
    simp only [List.lookup]
    cases hk : (k == k1) <;> simp [ih]

/-- Helper: membership in the canonicalized entries. -/
theorem mem_canonKvs {p : String × JVal} {kvs : List (String × JVal)}
    (hp : p ∈ canonKvs kvs) : ∃ q ∈ kvs, p = (q.1, canon q.2) := by
  induction kvs with
  | nil => rw [canonKvs] at hp; exact absurd hp (by simp)
  | cons kv rest ih =>
    obtain ⟨k1, v⟩ := kv
    rw [canonKvs] at hp
    rcases List.mem_cons.mp hp with rfl | hm
    · exact ⟨(k1, v), by simp, rfl⟩
    · obtain ⟨q, hq, hpq⟩ := ih hm
      exact ⟨q, by simp [hq], hpq⟩

/-- Helper: lookup is invariant under permutation when the keys are
pairwise distinct. -/
theorem perm_lookup {β : Type} {l1 l2 : List (String × β)} (p : l1.Perm l2)
    (hnd : (l1.map Prod.fst).Nodup) (k : String) :
    l1.lookup k = l2.lookup k := by
  induction p with
  | nil => rfl
  | cons x _ ih =>
    rw [List.map_cons, List.nodup_cons] at hnd
    simp only [List.lookup]
    cases hk : (k == x.1) <;> simp [ih hnd.2]
  | swap x y l =>
    rw [List.map_cons, List.map_cons, List.nodup_cons, List.nodup_cons] at hnd
    have hxy : y.1 ≠ x.1 := by
      intro heq
      exact hnd.1 (by rw [heq]; simp)
    simp only [List.lookup]
    cases hky : (k == y.1) <;> cases hkx : (k == x.1) <;> simp_all
  | trans p1 p2 ih1 ih2 =>
    rw [ih1 hnd, ih2]
    rw [← (p1.map Prod.fst).nodup_iff]
    exact hnd

/-- Helper: values of a mapping entry are structurally smaller. -/
theorem jsize_mem_lt {k : String} {v : JVal} {kvs : List (String × JVal)}
    (h : (k, v) ∈ kvs) : jsize v < 1 + msize kvs := by
  induction kvs with
  | nil => exact absurd h (by simp)
  | cons kv rest ih =>
    obtain ⟨k1, v1⟩ := kv
    rw [msize]
    rcases List.mem_cons.mp h with heq | hm
    · rw [Prod.mk.injEq] at heq
      rw [heq.2]
      have := jsize_pos v1
      omega
    · have := ih hm
      omega

/-- Helper: a Bool `contains` is false exactly when the element is
absent. -/
theorem contains_eq_false_iff (xs : List String) (a : String) :
    xs.contains a = false ↔ a ∉ xs := by
  rw [← Bool.not_eq_true]
  simp

/-- Helper: characterization of a well-formed mapping body: all keys
plain-safe, all values well-formed, keys pairwise distinct. -/
theorem yamlWFKvs_iff (kvs : List (String × JVal)) :
    yamlWFKvs kvs = true ↔
      (∀ p ∈ kvs, yamlPlainSafe p.1 = true ∧ yamlWF p.2 = true) ∧
      (kvs.map Prod.fst).Nodup := by
  induction kvs with
  | nil => simp [yamlWFKvs]
  | cons kv rest ih =>
    obtain ⟨k, v⟩ := kv
    constructor
    · intro h
      obtain ⟨hk, hnd, hv, hrest⟩ := yamlWFKvs_cons h
      obtain ⟨hall, hnodup⟩ := ih.mp hrest
      refine ⟨?_, ?_⟩
      · intro p hp
        rcases List.mem_cons.mp hp with rfl | hm
        · exact ⟨hk, hv⟩
        · exact hall p hm
      · rw [List.map_cons, List.nodup_cons]
        exact ⟨(contains_eq_false_iff _ _).mp hnd, hnodup⟩
    · intro ⟨hall, hnodup⟩
      rw [List.map_cons, List.nodup_cons] at hnodup
      rw [yamlWFKvs, Bool.and_eq_true, Bool.and_eq_true, Bool.and_eq_true]
      refine ⟨⟨⟨(hall (k, v) (by simp)).1, ?_⟩, (hall (k, v) (by simp)).2⟩,
        ih.mpr ⟨fun p hp => hall p (by simp [hp]), hnodup.2⟩⟩
      rw [Bool.not_eq_true']
      exact (contains_eq_false_iff _ _).mpr hnodup.1

/-- Helper: canonicalization preserves well-formedness. -/
theorem yamlWF_canon (n : Nat) : ∀ v, jsize v ≤ n → yamlWF v = true →
    yamlWF (canon v) = true := by
  induction n with
  | zero => intro v hsz _; exact absurd hsz (by have := jsize_pos v; omega)
  | succ n ih =>
    intro v hsz hwf
    cases v with
    | jstr s => exact hwf
    | jint m => rfl
    | jbool b => rfl
    | jobj kvs =>
      rw [canon, yamlWF, yamlWFKvs_iff]
      rw [yamlWF, yamlWFKvs_iff] at hwf
      obtain ⟨hall, hnodup⟩ := hwf
      constructor
      · intro p hp
        have hp2 : p ∈ canonKvs kvs := (sortKeys_perm (canonKvs kvs)).mem_iff.mp hp
        obtain ⟨q, hq, rfl⟩ := mem_canonKvs hp2
        obtain ⟨k1, v1⟩ := q
        refine ⟨(hall (k1, v1) hq).1, ?_⟩
        refine ih v1 ?_ (hall (k1, v1) hq).2
        have := jsize_mem_lt hq
        rw [jsize] at hsz
        omega
      · rw [((sortKeys_perm (canonKvs kvs)).map Prod.fst).nodup_iff, canonKvs_keys]
        exact hnodup

/-- Helper: no entry changes when every value is already canonical. -/
theorem canonKvs_eq_self {kvs : List (String × JVal)}
    (h : ∀ p ∈ kvs, canon p.2 = p.2) : canonKvs kvs = kvs := by
  induction kvs with
  | nil => rfl
  | cons kv rest ih =>
    obtain ⟨k, v⟩ := kv
    rw [canonKvs, h (k, v) (by simp), ih fun p hp => h p (by simp [hp])]

/-- Helper: canonicalization is idempotent. -/
theorem canon_canon (n : Nat) : ∀ v, jsize v ≤ n → canon (canon v) = canon v := by
  induction n with
  | zero => intro v hsz; exact absurd hsz (by have := jsize_pos v; omega)
  | succ n ih =>
    intro v hsz
    cases v with
    | jstr s => rfl
    | jint m => rfl
    | jbool b => rfl
    | jobj kvs =>
      rw [canon, canon]
      rw [canonKvs_eq_self (fun p hp => ?_), sortKeys_sorted_eq]
      have hp2 : p ∈ canonKvs kvs := (sortKeys_perm (canonKvs kvs)).mem_iff.mp hp
      obtain ⟨q, hq, rfl⟩ := mem_canonKvs hp2
      obtain ⟨k1, v1⟩ := q
      have hlt := jsize_mem_lt hq
      rw [jsize] at hsz
      exact ih v1 (by omega)

end Serial

namespace Serial

/-- Helper: the YAML encoding of a well-formed manifest mapping decodes
back to the mapping's canonical (key-sorted) form. -/
theorem yamlLoads_yamlDumps (m : List (String × JVal))
    (hwf : yamlWF (JVal.jobj m) = true) :
    yamlLoads (yamlDumps m) = some (canon (JVal.jobj m)) := by
  have hwfs : yamlWFKvs (sortKeys (canonKvs m)) = true := by
    have := yamlWF_canon (jsize (JVal.jobj m)) (JVal.jobj m) le_rfl hwf
    rw [canon, yamlWF] at this
    exact this
  cases hs : sortKeys (canonKvs m) with
  | nil =>
    rw [yamlDumps, hs, yamlLoads, if_pos rfl, canon, hs]
  | cons kv0 rest0 =>
    rw [hs] at hwfs
    obtain ⟨k0, v0⟩ := kv0
    have hk0 : yamlPlainSafe k0 = true := (yamlWFKvs_cons hwfs).1
    obtain ⟨hne0, hhead0, -, -⟩ := yamlPlainSafe_pieces k0 hk0
    obtain ⟨c0, cs0, hd0⟩ : ∃ c0 cs0, k0.data = c0 :: cs0 := by
      cases h : k0.data with
      | nil => exact absurd h hne0
      | cons c0 cs0 => exact ⟨c0, cs0, rfl⟩
    have hc0 : c0.isAlpha = true := hhead0 c0 (by rw [hd0]; rfl)
    have hh : (renderLines (objLines 0 ((k0, v0) :: rest0))).head? = some c0 := by
      by_cases hobj : ∃ kv2 rest2, v0 = JVal.jobj (kv2 :: rest2)
      · obtain ⟨kv2, rest2, rfl⟩ := hobj
        rw [objLines_cons_obj, renderLines_cons]
        simp [hd0]
      · rw [objLines_cons_scalar 0 k0 v0 rest0 (fun a b hab => hobj ⟨a, b, hab⟩),
          renderLines_cons]
        simp [hd0]
    have hneq : renderLines (objLines 0 ((k0, v0) :: rest0)) ≠ ['\x7b', '\x7d', '\n'] := by
      intro heq
      rw [heq] at hh
      simp at hh
      have : ('\x7b').isAlpha = true := by rw [hh]; exact hc0
      exact absurd this (by decide)
    rw [yamlDumps, hs, yamlLoads, if_neg (fun h => hneq h)]
    rw [show (String.mk (renderLines (objLines 0 ((k0, v0) :: rest0)))).data
        = renderLines (objLines 0 ((k0, v0) :: rest0)) from rfl]
    rw [show (String.mk (renderLines (objLines 0 ((k0, v0) :: rest0)))).length
        = (renderLines (objLines 0 ((k0, v0) :: rest0))).length from rfl]
    have hgood := objLines_good (objLines 0 ((k0, v0) :: rest0)).length 0
      ((k0, v0) :: rest0) le_rfl hwfs
    rw [toLines_renderLines (objLines 0 ((k0, v0) :: rest0)) hgood
      (renderLines (objLines 0 ((k0, v0) :: rest0))).length
      (length_le_renderLines (objLines 0 ((k0, v0) :: rest0)))]
    rw [Option.some_bind]
    have hparse := yaml_round ((objLines 0 ((k0, v0) :: rest0)).length + 1) 0
      ((k0, v0) :: rest0) [] hwfs (by omega) (by intro l hl; exact absurd hl (by simp))
    rw [List.append_nil] at hparse
    rw [hparse, Option.some_bind]
    rw [if_pos (by rfl), canon, hs]

end Serial

namespace Serial

/-- The keys of a top-level mapping value. -/
def topKeys : JVal → List String
  | JVal.jobj kvs => kvs.map Prod.fst
  | _ => []

/-- Key lookup in a top-level mapping value. -/
def objLookup : JVal → String → Option JVal
  | JVal.jobj kvs, k => kvs.lookup k
  | _, _ => none

end Serial

/-- `get_k8s_manifest_json`: serializes the manifest dict as JSON text;
the external `json.dumps` it calls is modelled by `Serial.jsonDumps`. -/
def get_k8s_manifest_json (m : List (String × JVal)) : String :=
  Serial.jsonDumps m

/-- `get_k8s_manifest_yaml`: serializes the manifest dict as YAML text;
the external `yaml.safe_dump` it calls is modelled by
`Serial.yamlDumps`. -/
def get_k8s_manifest_yaml (m : List (String × JVal)) : String :=
  Serial.yamlDumps m

open Serial in
/-- C9: For every manifest mapping (well-formed for the modelled JSON and
YAML fragments), both serialized encodings round-trip: decoding the JSON
encoding yields exactly the mapping, and decoding the YAML encoding
yields a mapping equivalent to it — equal up to recursive key reordering
(`canon`), with the same key set and, for every key, the looked-up value
preserved up to that same equivalence. -/
theorem claim_c9 (m : List (String × JVal))
    (hjson : jsonWF (JVal.jobj m) = true)
    (hyaml : yamlWF (JVal.jobj m) = true) :
    jsonLoads (get_k8s_manifest_json m) = some (JVal.jobj m) ∧
    ∃ y, yamlLoads (get_k8s_manifest_yaml m) = some y ∧
      canon y = canon (JVal.jobj m) ∧
      (topKeys y).Perm (m.map Prod.fst) ∧
      ∀ k w, m.lookup k = some w → objLookup y k = some (canon w) := by
  have hwfs : yamlWFKvs (sortKeys (canonKvs m)) = true := by
    have := yamlWF_canon (jsize (JVal.jobj m)) (JVal.jobj m) le_rfl hyaml
    rw [canon, yamlWF] at this
    exact this
  have hnd : ((sortKeys (canonKvs m)).map Prod.fst).Nodup :=
    ((yamlWFKvs_iff _).mp hwfs).2
  refine ⟨jsonLoads_jsonDumps m hjson,
    canon (JVal.jobj m), yamlLoads_yamlDumps m hyaml,
    canon_canon (jsize (JVal.jobj m)) (JVal.jobj m) le_rfl, ?_, ?_⟩
  · rw [canon]
    rw [show topKeys (JVal.jobj (sortKeys (canonKvs m)))
        = (sortKeys (canonKvs m)).map Prod.fst from rfl]
    have hperm := (sortKeys_perm (canonKvs m)).map Prod.fst
    rw [canonKvs_keys] at hperm
    exact hperm
  · intro k w hk
    rw [canon]
    rw [show objLookup (JVal.jobj (sortKeys (canonKvs m))) k
        = (sortKeys (canonKvs m)).lookup k from rfl]
    rw [perm_lookup (sortKeys_perm (canonKvs m)) hnd k]
    rw [canonKvs_lookup, hk]
    rfl

/-- Witness for C9 at a concrete deployment-like manifest. -/
theorem claim_c9_witness :
    Serial.jsonLoads (get_k8s_manifest_json
      [("apiVersion", JVal.jstr "v1"), ("kind", JVal.jstr "Deployment"),
       ("metadata", JVal.jobj [("name", JVal.jstr "web")]),
       ("replicas", JVal.jint 3)]) =
      some (JVal.jobj
        [("apiVersion", JVal.jstr "v1"), ("kind", JVal.jstr "Deployment"),
         ("metadata", JVal.jobj [("name", JVal.jstr "web")]),
         ("replicas", JVal.jint 3)]) ∧
    ∃ y, Serial.yamlLoads (get_k8s_manifest_yaml
      [("apiVersion", JVal.jstr "v1"), ("kind", JVal.jstr "Deployment"),
       ("metadata", JVal.jobj [("name", JVal.jstr "web")]),
       ("replicas", JVal.jint 3)]) = some y ∧
      Serial.canon y = Serial.canon (JVal.jobj
        [("apiVersion", JVal.jstr "v1"), ("kind", JVal.jstr "Deployment"),
         ("metadata", JVal.jobj [("name", JVal.jstr "web")]),
         ("replicas", JVal.jint 3)]) := by
  have h := claim_c9
    [("apiVersion", JVal.jstr "v1"), ("kind", JVal.jstr "Deployment"),
     ("metadata", JVal.jobj [("name", JVal.jstr "web")]),
     ("replicas", JVal.jint 3)] rfl rfl
  obtain ⟨h1, y, h2, h3, -⟩ := h
  exact ⟨h1, y, h2, h3⟩
